import Mathlib

/-!
# Verification of the `lattice` reactive-state engine

Shallow embedding of the `@lattice/signals` core:

* `src/packages/signals/src/types.ts`    — `signal` (the batch-aware cell)
* `src/packages/signals/src/computed.ts` — `computed`
* `src/unnamed/part_000`                 — `effect` (with ownership `children`)
* `src/unnamed/part_001` (second doc)    — `batch`, `getBatchDepth`, `getPendingNotifications`
* `src/packages/signals/src/tracking.ts` — `getCurrentTracker`, `runWithTracker`

Modelling conventions:

* JavaScript object identity is replaced by indices into explicit heaps
  (`sigs`, `comps`, `effs`); a `Tracker` reference is a `TrackerRef`, a
  readable cell is a `CellRef`.
* A JS `Set` is a duplicate-free `List` in insertion order; `Set.add` is
  `insertAbsent`, `Set.delete` is `List.erase`.
* A cleanup thunk closure (`() => { internalSubscribers.delete(cb);
  trackers.delete(t) }`) is defunctionalised to the `CellRef` it was created
  for; it is stored on the tracker that registered, exactly as the source
  pushes `cleanupFn` onto `currentTracker.cleanups`.
* A pending-notification thunk (the per-signal `flushPublicSubscribers`
  closure, or a tracker's `notify`) is defunctionalised to `NThunk`;
  the JS `Set`'s identity-based dedup becomes `insertAbsent` on `NThunk`.
* Observable behaviour (public subscriber invocations, effect-body runs,
  invocations of a computed's evaluation function) is recorded in an
  append-only `log`, playing the role of `vi.fn` call records and the
  `seen.push(...)` arrays of the repository's own tests.
* User-supplied functions are embedded deeply: a computed's evaluation
  function is an `Expr` (pure computation over cell reads), an effect body
  is a list of `Act`s (cell reads, whose values the body records, and
  creation of nested effects).
* Re-entrant recursion (write → notify → re-run → read → evaluate …) is
  made total with a `fuel : Nat` parameter decremented on every recursive
  call; exhaustion leaves the state unchanged.  All theorems either supply
  ample fuel or hold for every fuel.
-/

namespace Lattice

/-- Reference to a tracker: a derived cell (`computed.ts` object) or a
reaction (`part_000` effect object).  Stands for the JS object identity. -/
inductive TrackerRef where
  | cmp (i : Nat)
  | eff (i : Nat)
deriving DecidableEq, Repr

/-- Reference to a readable cell: a signal or a computed. -/
inductive CellRef where
  | sig (i : Nat)
  | cmp (i : Nat)
deriving DecidableEq, Repr

/-- A pending-notification thunk (`part_001` `pendingNotifications` entries):
either one signal's `flushPublicSubscribers` closure or one tracker's
`notify`.  The JS `Set` dedups by closure identity, i.e. by this data. -/
inductive NThunk where
  | flushPub (sid : Nat)
  | notify (t : TrackerRef)
deriving DecidableEq, Repr

/-- Observable events: a public subscriber called with `(newValue, oldValue)`
(`oldValue = none` models JS `undefined`), one run of an effect body
together with the cell values it read, and one invocation of a computed's
evaluation function. -/
inductive LogEntry (V : Type) where
  | pub (sub : Nat) (newValue : V) (oldValue : Option V)
  | effRun (eid : Nat) (vals : List V)
  | evalC (cid : Nat)
deriving DecidableEq, Repr

/-- `Set.add`: append, unless already present (JS sets keep insertion order
and ignore re-adds). -/
def insertAbsent {α : Type} [DecidableEq α] (l : List α) (a : α) : List α :=
  if a ∈ l then l else l ++ [a]

/-- Evaluation function of a computed: a pure computation over cell reads.
`app` embeds an arbitrary pure function of the host language. -/
inductive Expr (V : Type) where
  | lit (v : V)
  | readS (sid : Nat)
  | readC (cid : Nat)
  | app (f : V → V) (e : Expr V)
  | app2 (f : V → V → V) (e₁ e₂ : Expr V)

/-- One step of an effect body: read a cell (the body records the value
read, as the tests' bodies push into `seen`/`observed` arrays), or create a
nested effect. -/
inductive Act where
  | read (c : CellRef)
  | mk (body : List Act)

/-- State of one signal (`types.ts`, `signal`): `_value`, `equalityCheck`,
`internalSubscribers`, the `trackers` membership record, `publicSubscribers`,
and `_preBatchValue` (`none` models `_hasPrebatchValue === false`). -/
structure SignalData (V : Type) where
  value : V
  equals : V → V → Bool
  internalSubs : List TrackerRef
  trackersR : List TrackerRef
  publicSubs : List Nat
  preBatch : Option V

/-- State of one computed (`computed.ts`): cell half (value, equality,
subscriber sets) plus tracker half (`dirty`, `cleanups`) and its stored
evaluation function. -/
structure ComputedData (V : Type) where
  value : V
  equals : V → V → Bool
  fn : Expr V
  dirty : Bool
  cleanups : List CellRef
  internalSubs : List TrackerRef
  trackersR : List TrackerRef
  publicSubs : List Nat

/-- State of one effect (`part_000`): `active`, `cleanups`, owned
`children`, and its body. -/
structure EffectData where
  active : Bool
  cleanups : List CellRef
  children : List Nat
  body : List Act

/-- Whole engine state: the three heaps, the module-level tracker stack and
`isTracking` flag of `tracking.ts`, `batchDepth` and `pendingNotifications`
of `part_001`, and the observation log. -/
structure St (V : Type) where
  sigs : List (SignalData V)
  comps : List (ComputedData V)
  effs : List EffectData
  trackerStack : List TrackerRef
  isTracking : Bool
  batchDepth : Nat
  pending : List NThunk
  log : List (LogEntry V)

variable {V : Type} [Inhabited V]

/-- Placeholder signal used for out-of-range heap reads (never hit by any
execution in this file). -/
def dfltSig : SignalData V :=
  { value := default, equals := fun _ _ => false, internalSubs := [],
    trackersR := [], publicSubs := [], preBatch := none }

/-- Placeholder computed for out-of-range heap reads. -/
def dfltComp : ComputedData V :=
  { value := default, equals := fun _ _ => false, fn := .lit default,
    dirty := false, cleanups := [], internalSubs := [], trackersR := [],
    publicSubs := [] }

/-- Placeholder effect for out-of-range heap reads; inactive. -/
def dfltEff : EffectData :=
  { active := false, cleanups := [], children := [], body := [] }

def getSig (st : St V) (i : Nat) : SignalData V := st.sigs.getD i dfltSig

def getComp (st : St V) (i : Nat) : ComputedData V := st.comps.getD i dfltComp

def getEff (st : St V) (i : Nat) : EffectData := st.effs.getD i dfltEff

def updSig (st : St V) (i : Nat) (g : SignalData V → SignalData V) : St V :=
  { st with sigs := st.sigs.set i (g (getSig st i)) }

def updComp (st : St V) (i : Nat) (g : ComputedData V → ComputedData V) : St V :=
  { st with comps := st.comps.set i (g (getComp st i)) }

def updEff (st : St V) (i : Nat) (g : EffectData → EffectData) : St V :=
  { st with effs := st.effs.set i (g (getEff st i)) }

/-- Append an observation. -/
def logEv (st : St V) (e : LogEntry V) : St V := { st with log := st.log ++ [e] }

/-! ## Tracking context (`tracking.ts`) -/

/-- `getCurrentTracker`: top of the tracker stack, suppressed while
`isTracking` is false (the `untracked` mode). -/
def getCurrentTracker (st : St V) : Option TrackerRef :=
  if st.isTracking then st.trackerStack.head? else none

/-- `runWithTracker(tracker, fn)`: push the tracker, run `fn`, and pop in the
`finally` position.  An exception raised by `fn` is, in this state-passing
embedding, a returned value (e.g. an `Except.error`) carried alongside the
state at the point of the throw, so the pop applies on every exit path. -/
def runWithTracker {α : Type} (t : TrackerRef) (fn : St V → St V × α)
    (st : St V) : St V × α :=
  let st₁ := { st with trackerStack := t :: st.trackerStack }
  let (st₂, r) := fn st₁
  ({ st₂ with trackerStack := st₂.trackerStack.tail }, r)

/-- `untracked(fn)`: suspend dependency registration for the duration of
`fn`, restoring the previous flag on every exit path. -/
def untracked {α : Type} (fn : St V → St V × α) (st : St V) : St V × α :=
  let prev := st.isTracking
  let (st₁, r) := fn { st with isTracking := false }
  ({ st₁ with isTracking := prev }, r)

/-! ## Registration and cleanups -/

/-- The cell-specific subscriber lists, viewed uniformly. -/
def cellSubs (st : St V) : CellRef → List TrackerRef
  | .sig i => (getSig st i).internalSubs
  | .cmp i => (getComp st i).internalSubs

/-- Running one stored cleanup thunk for tracker `t`: delete `t.notify` from
the cell's `internalSubscribers` and `t` from its `trackers` record. -/
def removeReg (c : CellRef) (t : TrackerRef) (st : St V) : St V :=
  match c with
  | .sig i => updSig st i fun s =>
      { s with internalSubs := s.internalSubs.erase t,
               trackersR := s.trackersR.erase t }
  | .cmp i => updComp st i fun s =>
      { s with internalSubs := s.internalSubs.erase t,
               trackersR := s.trackersR.erase t }

/-- `tracker.cleanups.forEach(cleanup => cleanup())` over a snapshot of the
list. -/
def runCleanups (t : TrackerRef) (cls : List CellRef) (st : St V) : St V :=
  cls.foldl (fun s c => removeReg c t s) st

/-- Push a cleanup thunk onto the registering tracker's `cleanups`. -/
def pushCleanup (t : TrackerRef) (c : CellRef) (st : St V) : St V :=
  match t with
  | .cmp i => updComp st i fun d => { d with cleanups := d.cleanups ++ [c] }
  | .eff i => updEff st i fun d => { d with cleanups := d.cleanups ++ [c] }

/-- The dependency-registration step shared by `signal`'s and `computed`'s
`get value`: if a tracker is active and not in the cell's membership record,
add it to `trackers` and `internalSubscribers` and push the cleanup. -/
def registerDep (c : CellRef) (st : St V) : St V :=
  match getCurrentTracker st with
  | none => st
  | some t =>
    match c with
    | .sig i =>
      if t ∈ (getSig st i).trackersR then st
      else
        let st₁ := updSig st i fun s =>
          { s with trackersR := insertAbsent s.trackersR t,
                   internalSubs := insertAbsent s.internalSubs t }
        pushCleanup t c st₁
    | .cmp i =>
      if t ∈ (getComp st i).trackersR then st
      else
        let st₁ := updComp st i fun s =>
          { s with trackersR := insertAbsent s.trackersR t,
                   internalSubs := insertAbsent s.internalSubs t }
        pushCleanup t c st₁

/-- Call every public subscriber in a snapshot `subs` with
`(newValue, oldValue)` — the `[...publicSubscribers].forEach((s) =>
s(newValue, oldValue))` pass. -/
def pubNotify (subs : List Nat) (nv : V) (ov : Option V) (st : St V) : St V :=
  subs.foldl (fun t p => logEv t (.pub p nv ov)) st

/-- `signal`'s `get value`: register the active tracker, return `_value`. -/
def signalGet (sid : Nat) (st : St V) : St V × V :=
  (registerDep (.sig sid) st, (getSig st sid).value)

/-- `signal.peek()` / `computed.peek()`: return the stored value, registering
nothing and recomputing nothing. -/
def signalPeek (sid : Nat) (st : St V) : V := (getSig st sid).value

def computedPeek (cid : Nat) (st : St V) : V := (getComp st cid).value

/-! ## The re-entrant core

`computed.notify` eagerly re-evaluates and synchronously notifies its own
internal subscribers; an effect's `notify` re-runs its body, whose reads may
re-evaluate dirty computeds; `effect(fn)` inside a body creates and runs a
child.  All of this is one mutual recursion, made total by `fuel`. -/

mutual

/-- Dispatch a stored `notify` callback to its tracker. -/
def notifyTracker : Nat → TrackerRef → St V → St V
  | 0, _, st => st
  | f + 1, .cmp i, st => computedNotify f i st
  | f + 1, .eff i, st => effectNotify f i st

/-- `computed.notify` (`computed.ts` 43–52): set `dirty`; if observed
(`internalSubscribers.size > 0`) re-evaluate now, and if the value changed
notify a snapshot of the internal subscribers. -/
def computedNotify : Nat → Nat → St V → St V
  | 0, _, st => st
  | f + 1, cid, st =>
    let st₁ := updComp st cid fun c => { c with dirty := true }
    if 0 < (getComp st₁ cid).internalSubs.length then
      let oldValue := (getComp st₁ cid).value
      let st₂ := evaluate f cid st₁
      let c₂ := getComp st₂ cid
      if c₂.equals c₂.value oldValue then st₂
      else c₂.internalSubs.foldl (fun s t => notifyTracker f t s) st₂
    else st₁

/-- `evaluate` (`computed.ts` 12–17): run and clear the previous cleanups,
clear `dirty`, then run the evaluation function with this computed pushed as
the active tracker and store the result. -/
def evaluate : Nat → Nat → St V → St V
  | 0, _, st => st
  | f + 1, cid, st =>
    let st₁ := runCleanups (.cmp cid) (getComp st cid).cleanups st
    let st₂ := updComp st₁ cid fun c => { c with cleanups := [], dirty := false }
    let (st₃, v) := runComputedFn f cid st₂
    updComp st₃ cid fun c => { c with value := v }

/-- `runWithTracker(computed, fn)`: one invocation of the stored evaluation
function, recorded in the log. -/
def runComputedFn : Nat → Nat → St V → St V × V
  | 0, cid, st => (st, (getComp st cid).value)
  | f + 1, cid, st =>
    runWithTracker (.cmp cid)
      (fun s => evalExpr f (getComp s cid).fn (logEv s (.evalC cid))) st

/-- Evaluate a user computation: cell reads go through the cells' getters. -/
def evalExpr : Nat → Expr V → St V → St V × V
  | 0, _, st => (st, default)
  | _ + 1, .lit v, st => (st, v)
  | _ + 1, .readS i, st => signalGet i st
  | f + 1, .readC i, st => computedGet f i st
  | f + 1, .app g e, st =>
    let (st₁, v) := evalExpr f e st
    (st₁, g v)
  | f + 1, .app2 g e₁ e₂, st =>
    let (st₁, v₁) := evalExpr f e₁ st
    let (st₂, v₂) := evalExpr f e₂ st₁
    (st₂, g v₁ v₂)

/-- `computed`'s `get value` (`computed.ts` 20–40): if `dirty`, evaluate and
notify the public subscribers when the value changed; then perform the
dependency-registration step and return the (now fresh) value. -/
def computedGet : Nat → Nat → St V → St V × V
  | 0, cid, st => (st, (getComp st cid).value)
  | f + 1, cid, st =>
    let oldValue := (getComp st cid).value
    let st₁ :=
      if (getComp st cid).dirty then
        let st' := evaluate f cid st
        let c' := getComp st' cid
        if c'.equals c'.value oldValue then st'
        else pubNotify c'.publicSubs c'.value (some oldValue) st'
      else st
    let st₂ := registerDep (.cmp cid) st₁
    (st₂, (getComp st₂ cid).value)

/-- `effect.notify` (`part_000` 18–26): when `active`, dispose the owned
children, run and clear the cleanups, and re-run the body. -/
def effectNotify : Nat → Nat → St V → St V
  | 0, _, st => st
  | f + 1, eid, st =>
    let e := getEff st eid
    if e.active then
      let st₁ := e.children.foldl (fun s ch => effectDispose f ch s) st
      let st₂ := updEff st₁ eid fun d => { d with children := [] }
      let st₃ := runCleanups (.eff eid) (getEff st₂ eid).cleanups st₂
      let st₄ := updEff st₃ eid fun d => { d with cleanups := [] }
      runEffectBody f eid st₄
    else st

/-- `effect.dispose` (`part_000` 9–15): recursively dispose the owned
children, clear them, run and clear the cleanups, set `active := false`. -/
def effectDispose : Nat → Nat → St V → St V
  | 0, _, st => st
  | f + 1, eid, st =>
    let e := getEff st eid
    let st₁ := e.children.foldl (fun s ch => effectDispose f ch s) st
    let st₂ := updEff st₁ eid fun d => { d with children := [] }
    let st₃ := runCleanups (.eff eid) (getEff st₂ eid).cleanups st₂
    let st₄ := updEff st₃ eid fun d => { d with cleanups := [] }
    updEff st₄ eid fun d => { d with active := false }

/-- `runWithTracker(effect, fn)`: run the body with the effect as the active
tracker; the body reads its cells and records what it observed. -/
def runEffectBody : Nat → Nat → St V → St V
  | 0, _, st => st
  | f + 1, eid, st =>
    (runWithTracker (.eff eid)
      (fun s =>
        let (s₁, vals) := runActs f (getEff s eid).body s
        (logEv s₁ (.effRun eid vals), ())) st).1

/-- Interpret an effect body, collecting the values read. -/
def runActs : Nat → List Act → St V → St V × List V
  | 0, _, st => (st, [])
  | _ + 1, [], st => (st, [])
  | f + 1, .read c :: rest, st =>
    let (st₁, v) :=
      match c with
      | .sig i => signalGet i st
      | .cmp i => computedGet f i st
    let (st₂, vs) := runActs f rest st₁
    (st₂, v :: vs)
  | f + 1, .mk body :: rest, st =>
    let (st₁, _) := effect f body st
    runActs f rest st₁

/-- `effect(fn)` (`part_000` 5–34): allocate the reaction active, run its
body once, then — if a tracker was active above it — register it as a child
of that enclosing tracker (`currentTracker.children.add(effect)`; the
source would crash if that tracker were a computed, which has no `children`;
no execution below creates an effect inside a computed's evaluation). -/
def effect : Nat → List Act → St V → St V × Nat
  | 0, _, st => (st, st.effs.length)
  | f + 1, body, st =>
    let eid := st.effs.length
    let st₁ := { st with effs := st.effs ++
      [{ active := true, cleanups := [], children := [], body := body }] }
    let st₂ := runEffectBody f eid st₁
    let st₃ :=
      match getCurrentTracker st₂ with
      | some (.eff pid) => updEff st₂ pid fun d =>
          { d with children := insertAbsent d.children eid }
      | _ => st₂
    (st₃, eid)

end

/-! ## Batch layer (`part_001`, second document) -/

/-- A signal's `flushPublicSubscribers` closure (`types.ts` 29–36): if the
value at flush time equals the pre-batch value, clear the flag and notify
nobody; otherwise clear the flag and call every public subscriber with
`(current value, pre-batch value)`.  The `none` branch mirrors the source
calling through with the flag down (`oldValue` would be `undefined`); it is
never enqueued in that state. -/
def flushPublicSubs (sid : Nat) (st : St V) : St V :=
  let s := getSig st sid
  match s.preBatch with
  | some pb =>
    if s.equals s.value pb then
      updSig st sid fun d => { d with preBatch := none }
    else
      let st₁ := updSig st sid fun d => { d with preBatch := none }
      pubNotify s.publicSubs s.value (some pb) st₁
  | none => pubNotify s.publicSubs s.value none st

/-- Run one pending-notification thunk. -/
def runThunk (f : Nat) (th : NThunk) (st : St V) : St V :=
  match th with
  | .flushPub sid => flushPublicSubs sid st
  | .notify t => notifyTracker f t st

/-- The flush loop of `batch`: while `pendingNotifications` is non-empty,
snapshot it, clear it, and invoke every thunk in the snapshot. -/
def drain : Nat → St V → St V
  | 0, st => st
  | f + 1, st =>
    if st.pending.isEmpty then st
    else
      let queued := st.pending
      let st₁ := { st with pending := [] }
      drain f (queued.foldl (fun s th => runThunk f th s) st₁)

/-- `batch(fn)` (`part_001` 29–43): increment `batchDepth`, run `fn`; in the
`finally` position — reached on ordinary and exceptional exit alike — flush
when this call found depth 1, then decrement.  The arrow function is typed
`(fn: () => void): void`: `fn`'s return value is discarded and the JS call
evaluates to `undefined`, modelled as `none`; an exception raised by `fn`
(an `Except.error` produced alongside the state at the throw point)
propagates unchanged. -/
def batch {ε α : Type} (f : Nat) (fn : St V → St V × Except ε α)
    (st : St V) : St V × Except ε (Option V) :=
  let st₁ := { st with batchDepth := st.batchDepth + 1 }
  let (st₂, r) := fn st₁
  let st₃ := if st₂.batchDepth = 1 then drain f st₂ else st₂
  ({ st₃ with batchDepth := st₃.batchDepth - 1 }, r.map fun _ => none)

/-- `signal`'s `set value` (`types.ts` 53–72): no-op when the new value is
`equals` to the current one; otherwise store it and either enqueue the
flush thunk (capturing the pre-batch value once) and the internal
subscribers' notifies into the pending set, or — outside a transaction —
wrap the internal- and public-subscriber passes in an implicit `batch`. -/
def signalSet (f : Nat) (sid : Nat) (newValue : V) (st : St V) : St V :=
  let oldValue := (getSig st sid).value
  if (getSig st sid).equals newValue oldValue then st
  else
    let st₁ := updSig st sid fun d => { d with value := newValue }
    if 0 < st₁.batchDepth then
      let st₂ :=
        if (getSig st₁ sid).preBatch.isNone then
          updSig st₁ sid fun d => { d with preBatch := some oldValue }
        else st₁
      let st₃ := { st₂ with pending := insertAbsent st₂.pending (.flushPub sid) }
      (getSig st₃ sid).internalSubs.foldl
        (fun s t => { s with pending := insertAbsent s.pending (.notify t) }) st₃
    else
      (batch f (fun s =>
        let s₁ := (getSig s sid).internalSubs.foldl
          (fun acc t => notifyTracker f t acc) s
        let s₂ := pubNotify (getSig s₁ sid).publicSubs newValue
          (some oldValue) s₁
        (s₂, (Except.ok none : Except Unit (Option V)))) st₁).1

/-! ## Construction (`types.ts` 20–28, `computed.ts` 4–11, `signal.subscribe`) -/

/-- `signal(initial, options?)`: fresh cell; `equalityCheck` is
`options?.equals ?? Object.is`, where `objectIs` is the ambient identity
equality of the host value type. -/
def signal (objectIs : V → V → Bool) (v : V)
    (equalsOpt : Option (V → V → Bool)) (st : St V) : St V × Nat :=
  let sid := st.sigs.length
  ({ st with sigs := st.sigs ++
    [{ value := v, equals := equalsOpt.getD objectIs, internalSubs := [],
       trackersR := [], publicSubs := [], preBatch := none }] }, sid)

/-- `computed(fn, options?)`: fresh derived cell (`_value` starts out
undefined, modelled by `default`), then `_value = runWithTracker(computed,
fn)` — the single construction-time evaluation. -/
def computed (objectIs : V → V → Bool) (f : Nat) (e : Expr V)
    (equalsOpt : Option (V → V → Bool)) (st : St V) : St V × Nat :=
  let cid := st.comps.length
  let st₁ := { st with comps := st.comps ++
    [{ value := default, equals := equalsOpt.getD objectIs, fn := e,
       dirty := false, cleanups := [], internalSubs := [], trackersR := [],
       publicSubs := [] }] }
  let (st₂, v) := runComputedFn f cid st₁
  (updComp st₂ cid fun c => { c with value := v }, cid)

/-- `subscribe(cb)` on a signal: add the callback (identified by `p`) to
`publicSubscribers`. -/
def subscribeSig (sid : Nat) (p : Nat) (st : St V) : St V :=
  updSig st sid fun s => { s with publicSubs := insertAbsent s.publicSubs p }

/-- The empty engine state: no cells, no tracker, tracking enabled, outside
any transaction. -/
def St.empty : St V :=
  { sigs := [], comps := [], effs := [], trackerStack := [], isTracking := true,
    batchDepth := 0, pending := [], log := [] }

/-! ## Observations read off the log -/

/-- The sequence of value tuples recorded by runs of effect `eid` (the
`seen`/`observed` arrays of the repository's tests). -/
def effRuns (eid : Nat) (l : List (LogEntry V)) : List (List V) :=
  l.filterMap fun en => match en with
    | .effRun i vs => if i = eid then some vs else none
    | _ => none

/-- How many times effect `eid`'s body has run. -/
def countRuns (eid : Nat) (l : List (LogEntry V)) : Nat :=
  (effRuns eid l).length

/-- How many times computed `cid`'s evaluation function has been invoked. -/
def countEval (cid : Nat) (l : List (LogEntry V)) : Nat :=
  (l.filterMap fun en => match en with
    | .evalC i => if i = cid then some () else none
    | _ => none).length

/-- How many times public subscriber `p` has been called. -/
def countPub (p : Nat) (l : List (LogEntry V)) : Nat :=
  l.countP fun en => match en with
    | .pub q _ _ => q == p
    | _ => false

/-! ## Concrete value domains -/

/-- The identity equality on `Nat`-valued cells (what `Object.is` is on the
integral JS numbers used by the repository's tests). -/
def natIs : Nat → Nat → Bool := fun a b => a == b

/-- JS number values with the two distinctions `Object.is` is sensitive to:
`NaN` (a value that is not a number), `-0`, and the remaining numbers
(`+0` is `num 0`).  `Object.is` on this domain is structural equality:
`Object.is(NaN, NaN)` is `true` and `Object.is(+0, -0)` is `false`. -/
inductive JSVal where
  | nan
  | negZero
  | num (n : Int)
deriving DecidableEq, Inhabited, Repr

/-- `Object.is` on `JSVal`. -/
def objectIsJS : JSVal → JSVal → Bool := fun a b => a == b

/-! ## The diamond scenario of §8 / `glitch-free.test.ts`

`s = signal(1)`, `a = computed(() => s.value * 2)`,
`b = computed(() => s.value * 3)`, an effect recording
`[a.value, b.value]` on every run, then `s.value = 2` outside any batch. -/

/-- State after building the diamond and performing the write. -/
def diamondSt : St Nat :=
  let (st, s) := signal natIs 1 none St.empty
  let (st, _a) := computed natIs 40 (.app (· * 2) (.readS s)) none st
  let (st, _b) := computed natIs 40 (.app (· * 3) (.readS s)) none st
  let (st, _e) := effect 40 [.read (.cmp 0), .read (.cmp 1)] st
  signalSet 40 s 2 st

/-- One signal holding `s0` with equality `eq` and public subscribers
`subs`; nothing tracks it. -/
def oneSigSt (eq : V → V → Bool) (s0 : V) (subs : List Nat) : St V :=
  { sigs := [{ value := s0, equals := eq, internalSubs := [], trackersR := [],
               publicSubs := subs, preBatch := none }],
    comps := [], effs := [], trackerStack := [], isTracking := true,
    batchDepth := 0, pending := [], log := [] }

/-- A batch body consisting of the writes `ws`, in order, to the signal. -/
def writeSeq (f : Nat) (ws : List V) (st : St V) : St V :=
  ws.foldl (fun s v => signalSet f 0 v s) st

/-- `batch(() => { s.value = w₁; …; s.value = wₙ })` from `oneSigSt`. -/
def batchWrites (f : Nat) (eq : V → V → Bool) (s0 : V) (subs : List Nat)
    (ws : List V) : St V :=
  (batch f (fun st => (writeSeq f ws st,
      (Except.ok none : Except Unit (Option V)))) (oneSigSt eq s0 subs)).1

/-- The stored value and the did-any-write-change flag after applying the
guarded writes `ws` to `(value, flag)`. -/
def applyWrites (eq : V → V → Bool) (p : V × Bool) (ws : List V) : V × Bool :=
  ws.foldl (fun p v => if eq v p.1 then p else (v, true)) p

/-- Mid-batch state shape maintained by the write sequence. -/
def midSt (eq : V → V → Bool) (s0 : V) (subs : List Nat) (cur : V)
    (changed : Bool) : St V :=
  { sigs := [{ value := cur, equals := eq, internalSubs := [], trackersR := [],
               publicSubs := subs,
               preBatch := if changed then some s0 else none }],
    comps := [], effs := [], trackerStack := [], isTracking := true,
    batchDepth := 1, pending := if changed then [.flushPub 0] else [],
    log := [] }

/-- Final state shape after the batch completes. -/
def endSt (eq : V → V → Bool) (s0 cur : V) (subs : List Nat)
    (lg : List (LogEntry V)) : St V :=
  { sigs := [{ value := cur, equals := eq, internalSubs := [], trackersR := [],
               publicSubs := subs, preBatch := none }],
    comps := [], effs := [], trackerStack := [], isTracking := true,
    batchDepth := 0, pending := [], log := lg }

/-- Evaluation functions that read only signals (no nested computeds), the
shape of every computed in the repository's memoization tests. -/
def pureOfSignals : Expr V → Bool
  | .lit _ => true
  | .readS _ => true
  | .readC _ => false
  | .app _ e => pureOfSignals e
  | .app2 _ e₁ e₂ => pureOfSignals e₁ && pureOfSignals e₂

/-- `s = signal(u)`; `c = computed(() => φ(s.value))` (unobserved: no
tracker ever reads `c`); then `s.value = w`. -/
def peekSt (objIs : V → V → Bool) (φ : V → V) (u w : V) : St V :=
  signalSet 5 0 w
    (computed objIs 5 (.app φ (.readS 0)) none
      (signal objIs u none St.empty).1).1

/-- The §3 invariant for one signal: a tracker's notify appears at most
once in `internalSubscribers`, and every occupant is still covered by the
`trackers` membership record (so a re-read cannot re-add it). -/
def SigInv (s : SignalData V) : Prop :=
  s.internalSubs.Nodup ∧ ∀ t ∈ s.internalSubs, t ∈ s.trackersR

/-- The same invariant for the cell half of a computed. -/
def CompInv (c : ComputedData V) : Prop :=
  c.internalSubs.Nodup ∧ ∀ t ∈ c.internalSubs, t ∈ c.trackersR

/-- The invariant for every cell of the heap. -/
def AllInv (st : St V) : Prop :=
  (∀ i, SigInv (getSig st i)) ∧ (∀ i, CompInv (getComp st i))

/-- The state used by the C7 witness: an effect has read `s = signal(3)`
once, so it is registered exactly once. -/
def regSt : St Nat :=
  (effect 5 [.read (.sig 0)] (signal natIs 3 none St.empty).1).1

/-- The same state while that effect's body is on the tracker stack. -/
def regStT : St Nat := { regSt with trackerStack := [.eff 0] }

/-- The ownership edges: the `children` set of a reaction. -/
def childrenOf (st : St V) (e : Nat) : List Nat := (getEff st e).children

def activeOf (st : St V) (e : Nat) : Bool := (getEff st e).active

/-- `d` was transitively created during `e`'s runs: reflexive-transitive
closure of the ownership edges. -/
inductive Reaches (st : St V) : Nat → Nat → Prop
  | refl (e : Nat) : Reaches st e e
  | step {e c d : Nat} : c ∈ childrenOf st e → Reaches st c d →
      Reaches st e d

/-- A height certificate for the ownership forest: every child is lower
than its parent (the shape guaranteed by construction, since a child is
created during its parent's run). -/
def EdgesLt (H : Nat → Nat) (st : St V) : Prop :=
  ∀ x c, c ∈ childrenOf st x → H c < H x

/-- Disposal only removes: ownership edges shrink and `active` flags only
fall. -/
def Shrinks (st st' : St V) : Prop :=
  (∀ y, childrenOf st' y ⊆ childrenOf st y)
  ∧ (∀ y, activeOf st' y = true → activeOf st y = true)

/-- Every ownership path either survives, or its endpoint is already
deactivated. -/
def ReachPres (st st' : St V) : Prop :=
  ∀ y d, Reaches st y d → Reaches st' y d ∨ activeOf st' d = false

/-- An externally applied operation: a write to a signal, or a disposal. -/
inductive Op (V : Type) where
  | write (sid : Nat) (v : V)
  | disposeE (eid : Nat)

def applyOp (f : Nat) (st : St V) : Op V → St V
  | .write sid v => signalSet f sid v st
  | .disposeE eid => effectDispose f eid st

def applyOps (f : Nat) (ops : List (Op V)) (st : St V) : St V :=
  ops.foldl (applyOp f) st

/-- One inactivity-preserving step: the heap only grows, the reaction stays
inactive, and its body has not run again. -/
def InactStep (e : Nat) (st st' : St V) : Prop :=
  st.effs.length ≤ st'.effs.length
    ∧ activeOf st' e = false
    ∧ countRuns e st'.log = countRuns e st.log

/-- Tracker `t` holds no dependency registration anywhere: it sits in no
cell's `internalSubscribers`. -/
def Released (t : TrackerRef) (st : St V) : Prop :=
  ∀ c, t ∉ cellSubs st c

/-- Dependency registrations only disappear between the two states. -/
def SubsShrink (st st' : St V) : Prop :=
  ∀ c t, t ∈ cellSubs st' c → t ∈ cellSubs st c

/-- Every live registration of a reaction is covered by one of its stored
cleanups (the bookkeeping `registerDep` maintains). -/
def CovEff (st : St V) : Prop :=
  ∀ d c, (.eff d) ∈ cellSubs st c → c ∈ (getEff st d).cleanups

/-- Every cell's subscriber set is duplicate-free. -/
def NodupSubs (st : St V) : Prop :=
  ∀ c, (cellSubs st c).Nodup

/-- Every ownership path either survives, or its endpoint's registrations
are fully released. -/
def ReachRel (st st' : St V) : Prop :=
  ∀ y d, Reaches st y d → Reaches st' y d ∨ Released (.eff d) st'

/-- A parent effect (id 0) that reads signal 0 and creates a child effect
(id 1) that also reads signal 0 — the concrete ownership scenario for C3. -/
def dispSt : St Nat :=
  (effect 9 [.read (.sig 0), .mk [.read (.sig 0)]]
    (signal natIs 3 none St.empty).1).1

/-! # Theorems -/

set_option maxRecDepth 1000000

set_option maxHeartbeats 3200000

/-- `set value` returns before doing anything when the equality check
accepts the new value (`types.ts` 54–57). -/
theorem signalSet_noop (f sid : Nat) (v : V) (st : St V)
    (h : (getSig st sid).equals v (getSig st sid).value = true) :
    signalSet f sid v st = st := by
  simp [signalSet, h]

/-- C4: Equal-value write is a no-op: for every cell and every value `x`
such that `equals(x, current value)` holds, writing `x` leaves the entire
engine state unchanged — the stored value is the same, no public subscriber
is called (the log does not grow), and no dependent tracker is notified or
re-evaluated. -/
theorem C4_equal_write_noop (f sid : Nat) (v : V) (st : St V)
    (h : (getSig st sid).equals v (getSig st sid).value = true) :
    signalSet f sid v st = st :=
  signalSet_noop f sid v st h

/-- Witness for C4: writing `5` to a signal holding `5` (default equality)
satisfies the hypothesis and changes nothing. -/
theorem C4_equal_write_noop_witness :
    ((getSig ((signal natIs 5 none (St.empty (V := Nat))).1) 0).equals 5
        (getSig ((signal natIs 5 none (St.empty (V := Nat))).1) 0).value = true)
      ∧ signalSet 9 0 5 ((signal natIs 5 none (St.empty (V := Nat))).1)
          = (signal natIs 5 none (St.empty (V := Nat))).1 :=
  ⟨rfl, C4_equal_write_noop 9 0 5 _ rfl⟩

/-- C1: the code glitches on the diamond.  After `s.value = 2` the effect
body runs **twice** more, and its middle run observes the torn pair
`[4, 3]` — `a` already updated, `b` still stale — because
`computed.notify` re-evaluates eagerly and synchronously re-runs its
internal subscribers before the write's notification pass has reached `b`.
The claim (and the repository's own test
`glitch-free.test.ts: "diamond dependency without batch"`, which expects
`[[2,3],[4,6]]`) requires exactly one additional run. -/
theorem C1_diamond_glitch_trace :
    effRuns 0 diamondSt.log = [[2, 3], [4, 3], [4, 6]]
      ∧ countRuns 0 diamondSt.log = 3 := by
  simp [diamondSt, St.empty, signal, computed, effect, signalSet, signalGet,
    batch, drain, runThunk, flushPublicSubs, pubNotify, notifyTracker,
    computedNotify, evaluate, runComputedFn, evalExpr, computedGet,
    effectNotify, effectDispose, runEffectBody, runActs, registerDep,
    pushCleanup, runCleanups, removeReg, getSig, getComp, getEff, updSig,
    updComp, updEff, logEv, getCurrentTracker, runWithTracker, insertAbsent,
    natIs, effRuns, countRuns, dfltSig, dfltComp, dfltEff]

/-- C8 counterexample: `batch` is `(fn: () => void): void` — it discards
`fn`'s return value and the call evaluates to `undefined` (`none`), exactly
as the repository's own test `batch.test.ts: "batch returns void"` asserts.
For the function returning `42`, `batch(fn)` does not return `42`. -/
theorem C8_batch_return_counterexample :
    (batch 5 (fun st => (st, Except.ok (some 42))) (St.empty (V := Nat))).2
        = (Except.ok none : Except Unit (Option Nat))
      ∧ (batch 5 (fun st => (st, Except.ok (some 42))) (St.empty (V := Nat))).2
        ≠ (Except.ok (some 42) : Except Unit (Option Nat)) := by
  constructor <;> simp [batch, drain, St.empty, Except.map]

/-- C8 (amended): for every function `fn`, `batch(fn)` executes `fn` and
returns `undefined`, discarding `fn`'s return value; an exception raised by
`fn` propagates unchanged. -/
theorem C8_batch_returns_undefined {ε α : Type} (f : Nat)
    (fn : St V → St V × Except ε α) (st : St V) :
    (batch f fn st).2
      = ((fn { st with batchDepth := st.batchDepth + 1 }).2).map
          (fun _ => (none : Option V)) := by
  rcases h : fn { st with batchDepth := st.batchDepth + 1 } with ⟨st₂, r⟩
  simp [batch, h]

/-- Reading the freshly appended element of a heap. -/
theorem getD_snoc_length {α : Type} (l : List α) (a d : α) :
    (l ++ [a]).getD l.length d = a := by
  induction l with
  | nil => rfl
  | cons x xs ih => simp [ih]

/-- C9: when no `equals` option is given, signals and computeds use
`Object.is`: a value equals itself even when it is not-a-number, while `+0`
and `-0` are distinct.  Consequently writing `NaN` over `NaN` is a complete
no-op (no notification), while writing `-0` over `+0` notifies the public
subscriber. -/
theorem C9_default_equality_object_is :
    (∀ (v : JSVal) (st : St JSVal),
        (getSig (signal objectIsJS v none st).1
            (signal objectIsJS v none st).2).equals = objectIsJS)
      ∧ (∀ v : JSVal,
          (getComp (computed objectIsJS 5 (.lit v) none
              (St.empty (V := JSVal))).1 0).equals = objectIsJS)
      ∧ objectIsJS .nan .nan = true
      ∧ objectIsJS .negZero (.num 0) = false
      ∧ signalSet 5 0 .nan
            (subscribeSig 0 7 (signal objectIsJS .nan none St.empty).1)
          = subscribeSig 0 7 (signal objectIsJS .nan none St.empty).1
      ∧ (signalSet 5 0 .negZero
            (subscribeSig 0 7 (signal objectIsJS (.num 0) none St.empty).1)).log
          = [.pub 7 .negZero (some (.num 0))] := by
  refine ⟨?_, ?_, rfl, rfl, ?_, ?_⟩
  · intro v st
    simp [signal, getSig, getD_snoc_length]
  · intro v
    simp [computed, runComputedFn, evalExpr, runWithTracker, logEv, getComp,
      updComp, getD_snoc_length, St.empty, dfltComp]
  · simp [signalSet, signal, subscribeSig, getSig, updSig, St.empty, dfltSig,
      insertAbsent, objectIsJS]
  · simp [signalSet, signal, subscribeSig, getSig, updSig, St.empty, dfltSig,
      insertAbsent, objectIsJS, batch, drain, notifyTracker, logEv,
      getCurrentTracker, runThunk, flushPublicSubs, pubNotify]

/-! ## C2: batch coalescing against the pre-batch value -/

theorem writeSeq_mid (f : Nat) (eq : V → V → Bool) (s0 : V) (subs : List Nat) :
    ∀ (ws : List V) (cur : V) (changed : Bool),
      (changed = false → cur = s0) →
      writeSeq f ws (midSt eq s0 subs cur changed)
        = midSt eq s0 subs (applyWrites eq (cur, changed) ws).1
            (applyWrites eq (cur, changed) ws).2 := by
  intro ws
  induction ws with
  | nil => intro cur changed h; rfl
  | cons v ws ih =>
    intro cur changed h
    by_cases heq : eq v cur = true
    · have hstep : signalSet f 0 v (midSt eq s0 subs cur changed)
          = midSt eq s0 subs cur changed :=
        signalSet_noop f 0 v _ (by simp [midSt, getSig, heq])
      have hfold : writeSeq f (v :: ws) (midSt eq s0 subs cur changed)
          = writeSeq f ws (midSt eq s0 subs cur changed) := by
        simp [writeSeq, hstep]
      rw [hfold, ih cur changed h]
      simp [applyWrites, heq]
    · have hstep : signalSet f 0 v (midSt eq s0 subs cur changed)
          = midSt eq s0 subs v true := by
        cases changed
        · obtain rfl : cur = s0 := h rfl
          simp [Bool.not_eq_true] at heq
          simp [signalSet, midSt, getSig, updSig, insertAbsent, heq]
        · simp [Bool.not_eq_true] at heq
          simp [signalSet, midSt, getSig, updSig, insertAbsent, heq]
      have hfold : writeSeq f (v :: ws) (midSt eq s0 subs cur changed)
          = writeSeq f ws (midSt eq s0 subs v true) := by
        simp [writeSeq, hstep]
      rw [hfold, ih v true (by simp)]
      simp [applyWrites, heq]

/-- `drain` is the identity when nothing is pending. -/
theorem drain_empty (f : Nat) (st : St V) (h : st.pending = []) :
    drain f st = st := by
  cases f <;> simp [drain, h]

/-- The public-subscriber pass only appends to the log. -/
theorem pubNotify_eq (subs : List Nat) (nv : V) (ov : Option V) :
    ∀ st : St V, pubNotify subs nv ov st
      = { st with log := st.log ++ subs.map (fun p => .pub p nv ov) } := by
  induction subs with
  | nil => intro st; simp [pubNotify]
  | cons p ps ih =>
    intro st
    rw [pubNotify, List.foldl_cons, show List.foldl (fun t p => logEv t
      (.pub p nv ov)) (logEv st (.pub p nv ov)) ps = pubNotify ps nv ov
      (logEv st (.pub p nv ov)) from rfl, ih]
    simp [logEv]

/-- The observable outcome of a batched write sequence: nothing unless some
write changed the value and the final value differs from the pre-batch one
under the cell's equality; otherwise each subscriber exactly once with
`(final value, pre-batch value)`. -/
theorem batchWrites_eq (g : Nat) (eq : V → V → Bool) (s0 : V)
    (subs : List Nat) (ws : List V) :
    batchWrites (g + 1) eq s0 subs ws
      = endSt eq s0 (applyWrites eq (s0, false) ws).1 subs
          (if (applyWrites eq (s0, false) ws).2
              && !(eq (applyWrites eq (s0, false) ws).1 s0)
           then subs.map
             (fun p => .pub p (applyWrites eq (s0, false) ws).1 (some s0))
           else []) := by
  have hbody : writeSeq (g + 1) ws
      { oneSigSt eq s0 subs with
          batchDepth := (oneSigSt eq s0 subs).batchDepth + 1 }
        = midSt eq s0 subs (applyWrites eq (s0, false) ws).1
            (applyWrites eq (s0, false) ws).2 := by
    have h0 : ({ oneSigSt eq s0 subs with
        batchDepth := (oneSigSt eq s0 subs).batchDepth + 1 } : St V)
          = midSt eq s0 subs s0 false := by
      simp [oneSigSt, midSt]
    rw [h0]
    exact writeSeq_mid (g + 1) eq s0 subs ws s0 false (fun _ => rfl)
  simp only [batchWrites, batch]
  rw [hbody]
  rcases hch : (applyWrites eq (s0, false) ws).2 with _ | _
  · -- no write changed the value: nothing pending, no flush
    rw [drain_empty (g + 1) _ (by simp [midSt])]
    simp [midSt, endSt]
  · -- some write changed the value: one flush thunk runs once
    by_cases heq : eq (applyWrites eq (s0, false) ws).1 s0 = true
    · simp [drain, midSt, runThunk, flushPublicSubs, getSig, updSig, heq,
        endSt, drain_empty, dfltSig]
    · simp only [Bool.not_eq_true] at heq
      simp [drain, midSt, runThunk, flushPublicSubs, getSig, updSig, heq,
        endSt, drain_empty, pubNotify_eq, dfltSig]

/-- C2: for every sequence of writes to one signal inside a single `batch`,
each public subscriber of that signal is invoked at most once during the
flush, every invocation carries `(value after the last write, value before
the batch)`, and if the final value equals the pre-batch value under the
cell's equality no subscriber is invoked at all. -/
theorem C2_batch_coalescing (g : Nat) (eq : V → V → Bool) (s0 : V)
    (subs : List Nat) (ws : List V) (hN : subs.Nodup) :
    (∀ p, countPub p (batchWrites (g + 1) eq s0 subs ws).log ≤ 1)
      ∧ (∀ en ∈ (batchWrites (g + 1) eq s0 subs ws).log, ∃ p ∈ subs,
          en = .pub p (applyWrites eq (s0, false) ws).1 (some s0))
      ∧ ((getSig (batchWrites (g + 1) eq s0 subs ws) 0).value
          = (applyWrites eq (s0, false) ws).1)
      ∧ (eq (applyWrites eq (s0, false) ws).1 s0 = true →
          (batchWrites (g + 1) eq s0 subs ws).log = []) := by
  have hEq := batchWrites_eq g eq s0 subs ws
  have hlog : (batchWrites (g + 1) eq s0 subs ws).log
      = (if (applyWrites eq (s0, false) ws).2
            && !(eq (applyWrites eq (s0, false) ws).1 s0)
         then subs.map
           (fun p => .pub p (applyWrites eq (s0, false) ws).1 (some s0))
         else []) := by
    rw [hEq]; rfl
  have hval : (getSig (batchWrites (g + 1) eq s0 subs ws) 0).value
      = (applyWrites eq (s0, false) ws).1 := by
    rw [hEq]; simp [endSt, getSig]
  refine ⟨?_, ?_, hval, ?_⟩
  · intro p
    rw [hlog]
    by_cases hc : ((applyWrites eq (s0, false) ws).2
        && !(eq (applyWrites eq (s0, false) ws).1 s0)) = true
    · simp only [hc, if_pos]
      rw [countPub, List.countP_map]
      calc (subs.countP fun p' => p' == p) ≤ subs.count p := by
            apply le_of_eq
            simp [List.count]
          _ ≤ 1 := List.nodup_iff_count_le_one.mp hN p
    · simp [hc, countPub]
  · intro en hen
    rw [hlog] at hen
    by_cases hc : ((applyWrites eq (s0, false) ws).2
        && !(eq (applyWrites eq (s0, false) ws).1 s0)) = true
    · simp only [hc, if_pos, List.mem_map] at hen
      obtain ⟨p, hp, rfl⟩ := hen
      exact ⟨p, hp, rfl⟩
    · simp [hc] at hen
  · intro heq
    rw [hlog]
    simp [heq]

/-! ## Frame lemmas: nothing in the notification core touches `batchDepth` -/

@[simp] theorem batchDepth_updSig (st : St V) (i : Nat)
    (g : SignalData V → SignalData V) :
    (updSig st i g).batchDepth = st.batchDepth := rfl

@[simp] theorem batchDepth_updComp (st : St V) (i : Nat)
    (g : ComputedData V → ComputedData V) :
    (updComp st i g).batchDepth = st.batchDepth := rfl

@[simp] theorem batchDepth_updEff (st : St V) (i : Nat)
    (g : EffectData → EffectData) :
    (updEff st i g).batchDepth = st.batchDepth := rfl

@[simp] theorem batchDepth_logEv (st : St V) (e : LogEntry V) :
    (logEv st e).batchDepth = st.batchDepth := rfl

@[simp] theorem batchDepth_pubNotify (subs : List Nat) (nv : V)
    (ov : Option V) (st : St V) :
    (pubNotify subs nv ov st).batchDepth = st.batchDepth := by
  rw [pubNotify_eq]

@[simp] theorem batchDepth_removeReg (c : CellRef) (t : TrackerRef)
    (st : St V) : (removeReg c t st).batchDepth = st.batchDepth := by
  cases c <;> rfl

/-- Depth is preserved by any fold whose step preserves it. -/
theorem foldl_batchDepth {α : Type} (g : St V → α → St V)
    (h : ∀ s a, (g s a).batchDepth = s.batchDepth) :
    ∀ (l : List α) (st : St V), (l.foldl g st).batchDepth = st.batchDepth := by
  intro l
  induction l with
  | nil => intro st; rfl
  | cons a l ih => intro st; rw [List.foldl_cons, ih, h]

@[simp] theorem batchDepth_runCleanups (t : TrackerRef) (cls : List CellRef)
    (st : St V) : (runCleanups t cls st).batchDepth = st.batchDepth :=
  foldl_batchDepth _ (fun s c => batchDepth_removeReg c t s) cls st

@[simp] theorem batchDepth_pushCleanup (t : TrackerRef) (c : CellRef)
    (st : St V) : (pushCleanup t c st).batchDepth = st.batchDepth := by
  cases t <;> rfl

@[simp] theorem batchDepth_registerDep (c : CellRef) (st : St V) :
    (registerDep c st).batchDepth = st.batchDepth := by
  rcases hc : getCurrentTracker st with _ | t <;>
    rcases c with i | i <;>
    simp only [registerDep, hc] <;>
    split <;> simp

@[simp] theorem batchDepth_signalGet (sid : Nat) (st : St V) :
    ((signalGet sid st).1).batchDepth = st.batchDepth :=
  batchDepth_registerDep _ st

@[simp] theorem batchDepth_flushPublicSubs (sid : Nat) (st : St V) :
    (flushPublicSubs sid st).batchDepth = st.batchDepth := by
  rcases h : (getSig st sid).preBatch with _ | pb <;>
    simp only [flushPublicSubs, h] <;> [skip; split] <;> simp

/-- The whole notification core preserves `batchDepth` — no function in the
mutual block ever touches the transaction counter. -/
theorem depth_pres (f : Nat) :
    (∀ (t : TrackerRef) (st : St V),
        (notifyTracker f t st).batchDepth = st.batchDepth)
    ∧ (∀ (cid : Nat) (st : St V),
        (computedNotify f cid st).batchDepth = st.batchDepth)
    ∧ (∀ (cid : Nat) (st : St V),
        (evaluate f cid st).batchDepth = st.batchDepth)
    ∧ (∀ (cid : Nat) (st : St V),
        ((runComputedFn f cid st).1).batchDepth = st.batchDepth)
    ∧ (∀ (e : Expr V) (st : St V),
        ((evalExpr f e st).1).batchDepth = st.batchDepth)
    ∧ (∀ (cid : Nat) (st : St V),
        ((computedGet f cid st).1).batchDepth = st.batchDepth)
    ∧ (∀ (eid : Nat) (st : St V),
        (effectNotify f eid st).batchDepth = st.batchDepth)
    ∧ (∀ (eid : Nat) (st : St V),
        (effectDispose f eid st).batchDepth = st.batchDepth)
    ∧ (∀ (eid : Nat) (st : St V),
        (runEffectBody f eid st).batchDepth = st.batchDepth)
    ∧ (∀ (acts : List Act) (st : St V),
        ((runActs f acts st).1).batchDepth = st.batchDepth)
    ∧ (∀ (body : List Act) (st : St V),
        ((effect f body st).1).batchDepth = st.batchDepth) := by
  induction f with
  | zero =>
    refine ⟨?_, ?_, ?_, ?_, ?_, ?_, ?_, ?_, ?_, ?_, ?_⟩ <;>
      intro x st <;> first
      | rfl
      | (cases x <;> rfl)
  | succ f ih =>
    obtain ⟨ihNT, ihCN, ihEV, ihFN, ihEX, ihCG, ihEN, ihED, ihRB, ihRA, ihEF⟩ := ih
    have hNT : ∀ (t : TrackerRef) (st : St V),
        (notifyTracker (f + 1) t st).batchDepth = st.batchDepth := by
      intro t st
      cases t with
      | cmp i =>
        show (computedNotify f i st).batchDepth = st.batchDepth
        exact ihCN i st
      | eff i =>
        show (effectNotify f i st).batchDepth = st.batchDepth
        exact ihEN i st
    have hEV : ∀ (cid : Nat) (st : St V),
        (evaluate (f + 1) cid st).batchDepth = st.batchDepth := by
      intro cid st
      simp only [evaluate]
      rcases h : runComputedFn f cid
        (updComp (runCleanups (.cmp cid) (getComp st cid).cleanups st) cid
          fun c => { c with cleanups := [], dirty := false }) with ⟨st₃, v⟩
      have := ihFN cid (updComp (runCleanups (.cmp cid)
        (getComp st cid).cleanups st) cid
          fun c => { c with cleanups := [], dirty := false })
      rw [h] at this
      simp at this
      simpa using this
    have hCN : ∀ (cid : Nat) (st : St V),
        (computedNotify (f + 1) cid st).batchDepth = st.batchDepth := by
      intro cid st
      simp only [computedNotify]
      split
      · split
        · simp [ihEV]
        · rw [foldl_batchDepth _ (fun s t => ihNT t s), ihEV]
          simp
      · simp
    have hFN : ∀ (cid : Nat) (st : St V),
        ((runComputedFn (f + 1) cid st).1).batchDepth = st.batchDepth := by
      intro cid st
      simp only [runComputedFn, runWithTracker]
      rcases h : evalExpr f (getComp { st with
          trackerStack := .cmp cid :: st.trackerStack } cid).fn
        (logEv { st with trackerStack := .cmp cid :: st.trackerStack }
          (.evalC cid)) with ⟨st₂, v⟩
      have := ihEX (getComp { st with
          trackerStack := .cmp cid :: st.trackerStack } cid).fn
        (logEv { st with trackerStack := .cmp cid :: st.trackerStack }
          (.evalC cid))
      rw [h] at this
      simpa using this
    have hEX : ∀ (e : Expr V) (st : St V),
        ((evalExpr (f + 1) e st).1).batchDepth = st.batchDepth := by
      intro e st
      cases e with
      | lit v => rfl
      | readS i => simp [evalExpr]
      | readC i => simp only [evalExpr]; exact ihCG i st
      | app g e =>
        simp only [evalExpr]
        rcases h : evalExpr f e st with ⟨st₁, v⟩
        have := ihEX e st
        rw [h] at this
        simpa using this
      | app2 g e₁ e₂ =>
        simp only [evalExpr]
        rcases h₁ : evalExpr f e₁ st with ⟨st₁, v₁⟩
        rcases h₂ : evalExpr f e₂ st₁ with ⟨st₂, v₂⟩
        have t₁ := ihEX e₁ st; rw [h₁] at t₁
        have t₂ := ihEX e₂ st₁; rw [h₂] at t₂
        simp at t₁ t₂
        simp [t₂, t₁]
    have hCG : ∀ (cid : Nat) (st : St V),
        ((computedGet (f + 1) cid st).1).batchDepth = st.batchDepth := by
      intro cid st
      simp only [computedGet]
      split
      · split
        · simp [ihEV]
        · simp [ihEV]
      · simp
    have hRB : ∀ (eid : Nat) (st : St V),
        (runEffectBody (f + 1) eid st).batchDepth = st.batchDepth := by
      intro eid st
      simp only [runEffectBody, runWithTracker]
      rcases h : runActs f (getEff { st with
          trackerStack := .eff eid :: st.trackerStack } eid).body
        { st with trackerStack := .eff eid :: st.trackerStack } with ⟨s₁, vals⟩
      have := ihRA (getEff { st with
          trackerStack := .eff eid :: st.trackerStack } eid).body
        { st with trackerStack := .eff eid :: st.trackerStack }
      rw [h] at this
      simpa using this
    have hED : ∀ (eid : Nat) (st : St V),
        (effectDispose (f + 1) eid st).batchDepth = st.batchDepth := by
      intro eid st
      simp only [effectDispose, batchDepth_updEff, batchDepth_runCleanups]
      exact foldl_batchDepth _ (fun s ch => ihED ch s) _ st
    have hEN : ∀ (eid : Nat) (st : St V),
        (effectNotify (f + 1) eid st).batchDepth = st.batchDepth := by
      intro eid st
      simp only [effectNotify]
      split
      · simp only [ihRB, batchDepth_updEff, batchDepth_runCleanups]
        exact foldl_batchDepth _ (fun s ch => ihED ch s) _ st
      · rfl
    have hEF : ∀ (body : List Act) (st : St V),
        ((effect (f + 1) body st).1).batchDepth = st.batchDepth := by
      intro body st
      simp only [effect]
      rcases hc : getCurrentTracker (runEffectBody f st.effs.length
          { st with effs := st.effs ++
            [{ active := true, cleanups := [], children := [],
               body := body }] }) with _ | t
      · simp only [hc]
        rw [ihRB]
      · rcases t with i | i
        · simp only [hc]
          rw [ihRB]
        · simp only [hc, batchDepth_updEff]
          rw [ihRB]
    have hRA : ∀ (acts : List Act) (st : St V),
        ((runActs (f + 1) acts st).1).batchDepth = st.batchDepth := by
      intro acts st
      match acts with
      | [] => rfl
      | .read (.sig i) :: rest =>
        simp only [runActs]
        rcases h : runActs f rest (signalGet i st).1 with ⟨st₂, vs⟩
        have := ihRA rest (signalGet i st).1
        rw [h] at this
        simp at this
        simp [this]
      | .read (.cmp i) :: rest =>
        simp only [runActs]
        rcases hg : computedGet f i st with ⟨st₁, v⟩
        rcases h : runActs f rest st₁ with ⟨st₂, vs⟩
        have t₁ := ihCG i st; rw [hg] at t₁
        have t₂ := ihRA rest st₁; rw [h] at t₂
        simp at t₁ t₂
        simp [t₂, t₁]
      | .mk body :: rest =>
        simp only [runActs]
        rcases hg : effect f body st with ⟨st₁, eid⟩
        have t₁ := ihEF body st; rw [hg] at t₁
        have t₂ := ihRA rest st₁
        simp at t₁
        simp [t₂, t₁]
    exact ⟨hNT, hCN, hEV, hFN, hEX, hCG, hEN, hED, hRB, hRA, hEF⟩

/-- `runThunk` preserves `batchDepth`. -/
theorem batchDepth_runThunk (f : Nat) (th : NThunk) (st : St V) :
    (runThunk f th st).batchDepth = st.batchDepth := by
  cases th with
  | flushPub sid => exact batchDepth_flushPublicSubs sid st
  | notify t => exact (depth_pres f).1 t st

/-- The flush loop preserves `batchDepth`. -/
theorem batchDepth_drain (f : Nat) :
    ∀ st : St V, (drain f st).batchDepth = st.batchDepth := by
  induction f with
  | zero => intro st; rfl
  | succ f ih =>
    intro st
    simp only [drain]
    split
    · rfl
    · rw [ih, foldl_batchDepth _ (fun s th => batchDepth_runThunk f th s)]

/-- The value side of `batch`: `fn`'s result is discarded; its exception is
propagated; on ordinary exit the call evaluates to `undefined`. -/
theorem batch_snd {ε α : Type} (f : Nat) (fn : St V → St V × Except ε α)
    (st : St V) :
    (batch f fn st).2
      = ((fn { st with batchDepth := st.batchDepth + 1 }).2).map
          (fun _ => (none : Option V)) := by
  rcases h : fn { st with batchDepth := st.batchDepth + 1 } with ⟨st₂, r⟩
  simp [batch, h]

/-- C6: exception safety of the bookkeeping.  A user function raising an
exception (returning `Except.error` together with the state at the throw
point) propagates to the caller, while `runWithTracker` restores the
tracker stack to its previous top and `batch` returns the transaction depth
to its prior value — on every exit path, ordinary or exceptional.  The
hypotheses say the user function itself keeps the respective counter
balanced (as every function built from the engine's operations does; a
throwing function trivially does). -/
theorem C6_exception_safety :
    (∀ {ε α : Type} (t : TrackerRef) (fn : St V → St V × Except ε α)
        (st : St V),
        (∀ s, ((fn s).1).trackerStack = s.trackerStack) →
        (runWithTracker t fn st).1.trackerStack = st.trackerStack
          ∧ (runWithTracker t fn st).2
              = (fn { st with trackerStack := t :: st.trackerStack }).2)
    ∧ (∀ {ε α : Type} (f : Nat) (fn : St V → St V × Except ε α) (st : St V),
        (∀ s, ((fn s).1).batchDepth = s.batchDepth) →
        (batch f fn st).1.batchDepth = st.batchDepth
          ∧ (batch f fn st).2
              = ((fn { st with batchDepth := st.batchDepth + 1 }).2).map
                  (fun _ => (none : Option V))) := by
  constructor
  · intro ε α t fn st hfn
    rcases h : fn { st with trackerStack := t :: st.trackerStack }
      with ⟨st₂, r⟩
    have hs : st₂.trackerStack = t :: st.trackerStack := by
      have := hfn { st with trackerStack := t :: st.trackerStack }
      rw [h] at this
      simpa using this
    constructor
    · simp [runWithTracker, h, hs]
    · simp [runWithTracker, h]
  · intro ε α f fn st hfn
    rcases h : fn { st with batchDepth := st.batchDepth + 1 } with ⟨st₂, r⟩
    have hd : st₂.batchDepth = st.batchDepth + 1 := by
      have := hfn { st with batchDepth := st.batchDepth + 1 }
      rw [h] at this
      simpa using this
    refine ⟨?_, ?_⟩
    · simp only [batch, h]
      split
      · rw [batchDepth_drain, hd]; simp
      · rw [hd]; simp
    · have h2 := batch_snd f fn st
      rw [h] at h2
      exact h2

/-- Witness for C6: a function that immediately throws, run both under
`runWithTracker` and under `batch` from the empty state: the exception
comes out, the tracker stack is empty again and the depth is back to 0. -/
theorem C6_exception_safety_witness :
    ((runWithTracker (.eff 0)
        (fun s => (s, (Except.error "boom" : Except String Nat)))
        (St.empty (V := Nat))).1.trackerStack = []
      ∧ (runWithTracker (.eff 0)
          (fun s => (s, (Except.error "boom" : Except String Nat)))
          (St.empty (V := Nat))).2 = Except.error "boom")
    ∧ ((batch 3 (fun s => (s, (Except.error "boom" : Except String Nat)))
          (St.empty (V := Nat))).1.batchDepth = 0
      ∧ (batch 3 (fun s => (s, (Except.error "boom" : Except String Nat)))
          (St.empty (V := Nat))).2 = Except.error "boom") := by
  constructor
  · exact (C6_exception_safety (V := Nat)).1 (.eff 0) _ _ (fun s => rfl)
  · have := (C6_exception_safety (V := Nat)).2 3
      (fun s => (s, (Except.error "boom" : Except String Nat)))
      (St.empty (V := Nat)) (fun s => rfl)
    exact ⟨this.1, this.2.trans rfl⟩

/-! ## Heap access lemmas -/

theorem getComp_updComp_self (st : St V) (j : Nat)
    (g : ComputedData V → ComputedData V) (h : j < st.comps.length) :
    getComp (updComp st j g) j = g (getComp st j) := by
  simp [getComp, updComp, List.getD, List.getElem?_set_self, h]

theorem getComp_updComp_ne (st : St V) (i j : Nat)
    (g : ComputedData V → ComputedData V) (h : i ≠ j) :
    getComp (updComp st j g) i = getComp st i := by
  simp [getComp, updComp, List.getD, List.getElem?_set_ne, h.symm]

theorem updComp_oor (st : St V) (j : Nat)
    (g : ComputedData V → ComputedData V) (h : ¬ j < st.comps.length) :
    updComp st j g = st := by
  have hs : st.comps.set j (g (getComp st j)) = st.comps :=
    List.set_eq_of_length_le (by omega)
  simp [updComp, hs]

/-- A computed-heap update whose function leaves `dirty` alone leaves every
cell's `dirty` alone. -/
theorem dirty_updComp (st : St V) (j : Nat)
    (g : ComputedData V → ComputedData V)
    (hg : ∀ c, (g c).dirty = c.dirty) (i : Nat) :
    (getComp (updComp st j g) i).dirty = (getComp st i).dirty := by
  by_cases hij : i = j
  · subst hij
    by_cases hr : i < st.comps.length
    · rw [getComp_updComp_self st i g hr, hg]
    · rw [updComp_oor st i g hr]
  · rw [getComp_updComp_ne st i j g hij]

/-- `registerDep` only touches subscriber bookkeeping: the log, the tracker
stack, the tracking flag and every computed's `dirty` bit are unchanged. -/
theorem registerDep_frame (c : CellRef) (st : St V) :
    (registerDep c st).log = st.log
      ∧ (registerDep c st).trackerStack = st.trackerStack
      ∧ (registerDep c st).isTracking = st.isTracking
      ∧ ∀ i, (getComp (registerDep c st) i).dirty = (getComp st i).dirty := by
  rcases hc : getCurrentTracker st with _ | t
  · simp [registerDep, hc]
  · rcases c with i | i <;> rcases t with j | j <;>
      simp only [registerDep, hc, pushCleanup] <;> split
    · exact ⟨rfl, rfl, rfl, fun k => rfl⟩
    · exact ⟨rfl, rfl, rfl, fun k => dirty_updComp
        (updSig st i fun s =>
          { s with trackersR := insertAbsent s.trackersR (.cmp j),
                   internalSubs := insertAbsent s.internalSubs (.cmp j) })
        j (fun d => { d with cleanups := d.cleanups ++ [CellRef.sig i] })
        (fun c => rfl) k⟩
    · exact ⟨rfl, rfl, rfl, fun k => rfl⟩
    · exact ⟨rfl, rfl, rfl, fun k => rfl⟩
    · exact ⟨rfl, rfl, rfl, fun k => rfl⟩
    · refine ⟨rfl, rfl, rfl, fun k => ?_⟩
      have h₁ := dirty_updComp (updComp st i
        (fun s => { s with trackersR := insertAbsent s.trackersR (.cmp j),
                           internalSubs := insertAbsent s.internalSubs (.cmp j) }))
        j (fun d => { d with cleanups := d.cleanups ++ [CellRef.cmp i] })
        (fun c => rfl) k
      have h₂ := dirty_updComp st i
        (fun s => { s with trackersR := insertAbsent s.trackersR (.cmp j),
                           internalSubs := insertAbsent s.internalSubs (.cmp j) })
        (fun c => rfl) k
      exact h₁.trans h₂
    · exact ⟨rfl, rfl, rfl, fun k => rfl⟩
    · exact ⟨rfl, rfl, rfl, fun k =>
        dirty_updComp st i
          (fun s => { s with trackersR := insertAbsent s.trackersR (.eff j),
                             internalSubs := insertAbsent s.internalSubs (.eff j) })
          (fun c => rfl) k⟩

/-- `registerDep` is the identity when no tracker is active. -/
theorem registerDep_none (c : CellRef) (st : St V)
    (h : getCurrentTracker st = none) : registerDep c st = st := by
  simp [registerDep, h]

/-! ## C5: memoization -/

/-- Evaluating a signal-only computation registers dependencies but logs
nothing, leaves the tracker stack and tracking flag alone, and flips no
computed's `dirty` bit. -/
theorem evalExpr_pure (e : Expr V) (hp : pureOfSignals e = true) :
    ∀ (f : Nat) (st : St V),
      ((evalExpr f e st).1).log = st.log
        ∧ ((evalExpr f e st).1).trackerStack = st.trackerStack
        ∧ ((evalExpr f e st).1).isTracking = st.isTracking
        ∧ ∀ i, (getComp ((evalExpr f e st).1) i).dirty
            = (getComp st i).dirty := by
  induction e with
  | lit v =>
    intro f st
    cases f <;> exact ⟨rfl, rfl, rfl, fun i => rfl⟩
  | readS sid =>
    intro f st
    cases f with
    | zero => exact ⟨rfl, rfl, rfl, fun i => rfl⟩
    | succ f => exact registerDep_frame (.sig sid) st
  | readC cid => simp [pureOfSignals] at hp
  | app g e ih =>
    intro f st
    cases f with
    | zero => exact ⟨rfl, rfl, rfl, fun i => rfl⟩
    | succ f =>
      have h := ih hp f st
      simp only [evalExpr]
      rcases hr : evalExpr f e st with ⟨st₁, v⟩
      rw [hr] at h
      exact h
  | app2 g e₁ e₂ ih₁ ih₂ =>
    intro f st
    simp only [pureOfSignals, Bool.and_eq_true] at hp
    cases f with
    | zero => exact ⟨rfl, rfl, rfl, fun i => rfl⟩
    | succ f =>
      have h₁ := ih₁ hp.1 f st
      simp only [evalExpr]
      rcases hr₁ : evalExpr f e₁ st with ⟨st₁, v₁⟩
      rw [hr₁] at h₁
      have h₂ := ih₂ hp.2 f st₁
      rcases hr₂ : evalExpr f e₂ st₁ with ⟨st₂, v₂⟩
      rw [hr₂] at h₂
      exact ⟨h₂.1.trans h₁.1, h₂.2.1.trans h₁.2.1, h₂.2.2.1.trans h₁.2.2.1,
        fun i => (h₂.2.2.2 i).trans (h₁.2.2.2 i)⟩

theorem countEval_append (cid : Nat) (l₁ l₂ : List (LogEntry V)) :
    countEval cid (l₁ ++ l₂) = countEval cid l₁ + countEval cid l₂ := by
  simp [countEval]

/-- C5: memoization.  First conjunct: reading a clean computed from outside
any tracker is a complete no-op returning the cached value — in particular
the second of two consecutive reads never re-invokes the evaluation
function.  Second conjunct: constructing a computed over signal reads
invokes its evaluation function exactly once, and every subsequent read
(with no intervening dependency change) leaves the state — including the
invocation count — unchanged, returning the cached value. -/
theorem C5_memoization :
    (∀ (f cid : Nat) (st : St V),
        (getComp st cid).dirty = false →
        getCurrentTracker st = none →
        computedGet f cid st = (st, (getComp st cid).value))
      ∧ (∀ (objIs : V → V → Bool) (f : Nat) (e : Expr V)
          (opts : Option (V → V → Bool)) (st : St V),
          pureOfSignals e = true →
          getCurrentTracker st = none →
          countEval (computed objIs (f + 1) e opts st).2
              ((computed objIs (f + 1) e opts st).1).log
            = countEval (computed objIs (f + 1) e opts st).2 st.log + 1
          ∧ ∀ g : Nat, computedGet g (computed objIs (f + 1) e opts st).2
                (computed objIs (f + 1) e opts st).1
              = ((computed objIs (f + 1) e opts st).1,
                (getComp (computed objIs (f + 1) e opts st).1
                  (computed objIs (f + 1) e opts st).2).value)) := by
  have hread : ∀ (f cid : Nat) (st : St V),
      (getComp st cid).dirty = false →
      getCurrentTracker st = none →
      computedGet f cid st = (st, (getComp st cid).value) := by
    intro f cid st hd ht
    cases f with
    | zero => rfl
    | succ f => simp [computedGet, hd, registerDep_none _ _ ht]
  refine ⟨hread, ?_⟩
  intro objIs f e opts st hp ht
  have hfn : ∀ (ts : List TrackerRef) (lg : List (LogEntry V)),
      getComp { st with
        comps := st.comps ++
          [⟨default, opts.getD objIs, e, false, [], [], [], []⟩],
        trackerStack := ts, log := lg } st.comps.length
      = ⟨default, opts.getD objIs, e, false, [], [], [], []⟩ := by
    intro ts lg
    exact getD_snoc_length _ _ _
  rcases hev : evalExpr f e { st with
      comps := st.comps ++
        [⟨default, opts.getD objIs, e, false, [], [], [], []⟩],
      trackerStack := .cmp st.comps.length :: st.trackerStack,
      log := st.log ++ [.evalC st.comps.length] } with ⟨stE, v⟩
  have hpure := evalExpr_pure e hp f { st with
      comps := st.comps ++
        [⟨default, opts.getD objIs, e, false, [], [], [], []⟩],
      trackerStack := .cmp st.comps.length :: st.trackerStack,
      log := st.log ++ [.evalC st.comps.length] }
  rw [hev] at hpure
  obtain ⟨hplog, hpstack, hptrk, hpdirty⟩ := hpure
  have hC1 : (computed objIs (f + 1) e opts st).1
      = updComp { stE with trackerStack := stE.trackerStack.tail }
          st.comps.length (fun c => { c with value := v }) := by
    simp only [computed, runComputedFn, runWithTracker, logEv, hfn]
    rw [hev]
  have hC2 : (computed objIs (f + 1) e opts st).2 = st.comps.length := by
    simp only [computed]
  have hlog : ((computed objIs (f + 1) e opts st).1).log
      = st.log ++ [.evalC st.comps.length] := by
    rw [hC1]
    show stE.log = _
    simpa using hplog
  have hdirty : (getComp ((computed objIs (f + 1) e opts st).1)
      st.comps.length).dirty = false := by
    rw [hC1]
    have h₁ := dirty_updComp { stE with trackerStack := stE.trackerStack.tail }
      st.comps.length (fun c => { c with value := v }) (fun c => rfl)
      st.comps.length
    rw [h₁]
    show (getComp stE st.comps.length).dirty = false
    rw [hpdirty st.comps.length]
    have := hfn (.cmp st.comps.length :: st.trackerStack)
      (st.log ++ [.evalC st.comps.length])
    rw [this]
  have htr : getCurrentTracker ((computed objIs (f + 1) e opts st).1)
      = none := by
    rw [hC1]
    show (if stE.isTracking then stE.trackerStack.tail.head? else none) = none
    rw [hptrk, hpstack]
    show getCurrentTracker st = none
    exact ht
  constructor
  · rw [hC2, hlog, countEval_append]
    simp [countEval]
  · intro g
    rw [hC2]
    exact hread g st.comps.length _ hdirty htr
/-- Witness for C5: `c = computed(() => s.value * 2)` over `s = signal(7)`:
the construction invokes the function once, and a subsequent outside read
is the identity on the state and returns the cached value. -/
theorem C5_memoization_witness :
    (pureOfSignals (Expr.app (fun v => v * 2) (.readS 0)) = true
      ∧ getCurrentTracker ((signal natIs 7 none (St.empty (V := Nat))).1)
          = none)
    ∧ countEval (computed natIs 4 (Expr.app (fun v => v * 2) (.readS 0)) none
          ((signal natIs 7 none (St.empty (V := Nat))).1)).2
        ((computed natIs 4 (Expr.app (fun v => v * 2) (.readS 0)) none
          ((signal natIs 7 none (St.empty (V := Nat))).1)).1).log
      = countEval (computed natIs 4 (Expr.app (fun v => v * 2) (.readS 0)) none
          ((signal natIs 7 none (St.empty (V := Nat))).1)).2
        ((signal natIs 7 none (St.empty (V := Nat))).1).log + 1
    ∧ computedGet 2 (computed natIs 4 (Expr.app (fun v => v * 2) (.readS 0))
          none ((signal natIs 7 none (St.empty (V := Nat))).1)).2
        (computed natIs 4 (Expr.app (fun v => v * 2) (.readS 0)) none
          ((signal natIs 7 none (St.empty (V := Nat))).1)).1
      = ((computed natIs 4 (Expr.app (fun v => v * 2) (.readS 0)) none
            ((signal natIs 7 none (St.empty (V := Nat))).1)).1,
         (getComp (computed natIs 4 (Expr.app (fun v => v * 2) (.readS 0))
              none ((signal natIs 7 none (St.empty (V := Nat))).1)).1
            (computed natIs 4 (Expr.app (fun v => v * 2) (.readS 0)) none
              ((signal natIs 7 none (St.empty (V := Nat))).1)).2).value) :=
  ⟨⟨rfl, rfl⟩,
   (C5_memoization.2 natIs 3 (Expr.app (fun v => v * 2) (.readS 0)) none
      ((signal natIs 7 none (St.empty (V := Nat))).1) rfl rfl).1,
   ((C5_memoization.2 natIs 3 (Expr.app (fun v => v * 2) (.readS 0)) none
      ((signal natIs 7 none (St.empty (V := Nat))).1) rfl rfl).2) 2⟩

/-! ## C10: `computed.peek` returns the cached value, unobserved computeds
stay stale until read -/

/-- C10: after a value-changing write to the dependency of an unobserved
computed, `peek()` returns the stale pre-change value without running the
evaluation function (the function has still run exactly once, at
construction) and the `dirty` flag stays set; a subsequent `value` read
re-evaluates — exactly one more invocation — and returns the fresh value. -/
theorem C10_peek_stale_then_value_recomputes (objIs : V → V → Bool)
    (φ : V → V) (u w : V) (h : objIs w u = false) :
    computedPeek 0 (peekSt objIs φ u w) = φ u
      ∧ (getComp (peekSt objIs φ u w) 0).dirty = true
      ∧ countEval 0 (peekSt objIs φ u w).log = 1
      ∧ (computedGet 5 0 (peekSt objIs φ u w)).2 = φ w
      ∧ countEval 0 ((computedGet 5 0 (peekSt objIs φ u w)).1).log = 2 := by
  have hpeek : peekSt objIs φ u w
      = { sigs := [⟨w, objIs, [.cmp 0], [.cmp 0], [], none⟩],
          comps := [⟨φ u, objIs, .app φ (.readS 0), true, [.sig 0], [], [],
            []⟩],
          effs := [], trackerStack := [], isTracking := true, batchDepth := 0,
          pending := [], log := [.evalC 0] } := by
    simp [peekSt, signal, computed, signalSet, signalGet, batch, drain,
      runThunk, flushPublicSubs, pubNotify, notifyTracker, computedNotify,
      evaluate, runComputedFn, evalExpr, registerDep,
      pushCleanup, runCleanups, removeReg, getSig, getComp, getEff, updSig,
      updComp, updEff, logEv, getCurrentTracker, runWithTracker, insertAbsent,
      St.empty, dfltSig, dfltComp, h]
  have hget : computedGet 5 0 (peekSt objIs φ u w)
      = ({ sigs := [⟨w, objIs, [.cmp 0], [.cmp 0], [], none⟩],
           comps := [⟨φ w, objIs, .app φ (.readS 0), false, [.sig 0], [], [],
             []⟩],
           effs := [], trackerStack := [], isTracking := true,
           batchDepth := 0, pending := [],
           log := [.evalC 0, .evalC 0] }, φ w) := by
    rw [hpeek]
    simp [computedGet, evaluate, runComputedFn, evalExpr, signalGet,
      registerDep, pushCleanup, runCleanups, removeReg, getSig, getComp,
      updSig, updComp, logEv, getCurrentTracker, runWithTracker,
      insertAbsent, pubNotify, dfltSig, dfltComp]
  refine ⟨?_, ?_, ?_, ?_, ?_⟩
  · rw [hpeek]; rfl
  · rw [hpeek]; rfl
  · rw [hpeek]; rfl
  · rw [hget]
  · rw [hget]; rfl

/-- Witness for C10 at `u = 1`, `w = 2`, `φ = (· * 2)` (the doubled-signal
computed of the repository's tests). -/
theorem C10_peek_witness :
    natIs 2 1 = false
      ∧ (computedPeek 0 (peekSt natIs (fun v => v * 2) 1 2) = 2
        ∧ (getComp (peekSt natIs (fun v => v * 2) 1 2) 0).dirty = true
        ∧ countEval 0 (peekSt natIs (fun v => v * 2) 1 2).log = 1
        ∧ (computedGet 5 0 (peekSt natIs (fun v => v * 2) 1 2)).2 = 4
        ∧ countEval 0
            ((computedGet 5 0 (peekSt natIs (fun v => v * 2) 1 2)).1).log
          = 2) :=
  ⟨rfl, C10_peek_stale_then_value_recomputes natIs (fun v => v * 2) 1 2 rfl⟩

/-! ## C7: at-most-once registration -/

theorem getSig_updSig_self (st : St V) (j : Nat)
    (g : SignalData V → SignalData V) (h : j < st.sigs.length) :
    getSig (updSig st j g) j = g (getSig st j) := by
  simp [getSig, updSig, List.getD, List.getElem?_set_self, h]

theorem getSig_updSig_ne (st : St V) (i j : Nat)
    (g : SignalData V → SignalData V) (h : i ≠ j) :
    getSig (updSig st j g) i = getSig st i := by
  simp [getSig, updSig, List.getD, List.getElem?_set_ne, h.symm]

theorem updSig_oor (st : St V) (j : Nat)
    (g : SignalData V → SignalData V) (h : ¬ j < st.sigs.length) :
    updSig st j g = st := by
  have hs : st.sigs.set j (g (getSig st j)) = st.sigs :=
    List.set_eq_of_length_le (by omega)
  simp [updSig, hs]

theorem sigInv_dflt : SigInv (dfltSig (V := V)) := by
  constructor <;> simp [dfltSig]

theorem compInv_dflt : CompInv (dfltComp (V := V)) := by
  constructor <;> simp [dfltComp]

/-- Adding an absent tracker to both lists keeps the invariant. -/
theorem sigInv_register (s : SignalData V) (t : TrackerRef) (hs : SigInv s)
    (ht : t ∉ s.trackersR) :
    SigInv { s with trackersR := insertAbsent s.trackersR t,
                    internalSubs := insertAbsent s.internalSubs t } := by
  obtain ⟨hn, hsub⟩ := hs
  have htn : t ∉ s.internalSubs := fun hmem => ht (hsub t hmem)
  constructor
  · simp only [insertAbsent, if_neg htn]
    simp [List.nodup_append, hn, htn]
  · intro x hx
    simp only [insertAbsent, if_neg htn, List.mem_append,
      List.mem_singleton] at hx
    rcases hx with hx | rfl
    · have := hsub x hx
      by_cases hmem : t ∈ s.trackersR
      · simpa [insertAbsent, hmem] using this
      · simp [insertAbsent, hmem, this]
    · by_cases hmem : x ∈ s.trackersR
      · simp [insertAbsent, hmem]
      · simp [insertAbsent, hmem]

/-- Deleting a tracker from both lists keeps the invariant. -/
theorem sigInv_erase (s : SignalData V) (t : TrackerRef) (hs : SigInv s) :
    SigInv { s with internalSubs := s.internalSubs.erase t,
                    trackersR := s.trackersR.erase t } := by
  obtain ⟨hn, hsub⟩ := hs
  refine ⟨hn.erase t, ?_⟩
  intro x hx
  rw [List.Nodup.mem_erase_iff hn] at hx
  exact (List.mem_erase_of_ne hx.1).mpr (hsub x hx.2)

theorem compInv_register (c : ComputedData V) (t : TrackerRef)
    (hs : CompInv c) (ht : t ∉ c.trackersR) :
    CompInv { c with trackersR := insertAbsent c.trackersR t,
                     internalSubs := insertAbsent c.internalSubs t } := by
  obtain ⟨hn, hsub⟩ := hs
  have htn : t ∉ c.internalSubs := fun hmem => ht (hsub t hmem)
  constructor
  · simp only [insertAbsent, if_neg htn]
    simp [List.nodup_append, hn, htn]
  · intro x hx
    simp only [insertAbsent, if_neg htn, List.mem_append,
      List.mem_singleton] at hx
    rcases hx with hx | rfl
    · have := hsub x hx
      by_cases hmem : t ∈ c.trackersR
      · simpa [insertAbsent, hmem] using this
      · simp [insertAbsent, hmem, this]
    · by_cases hmem : x ∈ c.trackersR
      · simp [insertAbsent, hmem]
      · simp [insertAbsent, hmem]

theorem compInv_erase (c : ComputedData V) (t : TrackerRef)
    (hs : CompInv c) :
    CompInv { c with internalSubs := c.internalSubs.erase t,
                     trackersR := c.trackersR.erase t } := by
  obtain ⟨hn, hsub⟩ := hs
  refine ⟨hn.erase t, ?_⟩
  intro x hx
  rw [List.Nodup.mem_erase_iff hn] at hx
  exact (List.mem_erase_of_ne hx.1).mpr (hsub x hx.2)

/-- `AllInv` is preserved by a signal-heap update whose function preserves
`SigInv`. -/
theorem allInv_updSig (st : St V) (j : Nat) (g : SignalData V → SignalData V)
    (hg : SigInv (getSig st j) → SigInv (g (getSig st j)))
    (h : AllInv st) : AllInv (updSig st j g) := by
  refine ⟨fun i => ?_, fun i => h.2 i⟩
  by_cases hij : i = j
  · subst hij
    by_cases hr : i < st.sigs.length
    · rw [getSig_updSig_self st i g hr]
      exact hg (h.1 i)
    · rw [updSig_oor st i g hr]
      exact h.1 i
  · rw [getSig_updSig_ne st i j g hij]
    exact h.1 i

theorem allInv_updComp (st : St V) (j : Nat)
    (g : ComputedData V → ComputedData V)
    (hg : CompInv (getComp st j) → CompInv (g (getComp st j)))
    (h : AllInv st) : AllInv (updComp st j g) := by
  refine ⟨fun i => h.1 i, fun i => ?_⟩
  by_cases hij : i = j
  · subst hij
    by_cases hr : i < st.comps.length
    · rw [getComp_updComp_self st i g hr]
      exact hg (h.2 i)
    · rw [updComp_oor st i g hr]
      exact h.2 i
  · rw [getComp_updComp_ne st i j g hij]
    exact h.2 i

theorem allInv_removeReg (c : CellRef) (t : TrackerRef) (st : St V)
    (h : AllInv st) : AllInv (removeReg c t st) := by
  cases c with
  | sig i => exact allInv_updSig st i _ (fun hs => sigInv_erase _ t hs) h
  | cmp i => exact allInv_updComp st i _ (fun hs => compInv_erase _ t hs) h

/-- A fold of invariant-preserving steps preserves the invariant. -/
theorem foldl_allInv {α : Type} (g : St V → α → St V)
    (hg : ∀ s a, AllInv s → AllInv (g s a)) :
    ∀ (l : List α) (st : St V), AllInv st → AllInv (l.foldl g st) := by
  intro l
  induction l with
  | nil => intro st h; exact h
  | cons a l ih => intro st h; exact ih _ (hg st a h)

theorem allInv_runCleanups (t : TrackerRef) (cls : List CellRef) (st : St V)
    (h : AllInv st) : AllInv (runCleanups t cls st) :=
  foldl_allInv _ (fun s c => allInv_removeReg c t s) cls st h

theorem allInv_pushCleanup (t : TrackerRef) (c : CellRef) (st : St V)
    (h : AllInv st) : AllInv (pushCleanup t c st) := by
  cases t with
  | cmp j => exact allInv_updComp st j _ (fun hs => ⟨hs.1, hs.2⟩) h
  | eff j => exact h

theorem allInv_registerDep (c : CellRef) (st : St V) (h : AllInv st) :
    AllInv (registerDep c st) := by
  rcases hc : getCurrentTracker st with _ | t
  · simpa [registerDep, hc] using h
  · rcases c with i | i <;> simp only [registerDep, hc] <;> split
    · exact h
    · exact allInv_pushCleanup t _ _
        (allInv_updSig st i _ (fun hs => sigInv_register _ t hs (by assumption)) h)
    · exact h
    · exact allInv_pushCleanup t _ _
        (allInv_updComp st i _ (fun hs => compInv_register _ t hs (by assumption)) h)

theorem allInv_logEv (st : St V) (e : LogEntry V) (h : AllInv st) :
    AllInv (logEv st e) := h

theorem allInv_pubNotify (subs : List Nat) (nv : V) (ov : Option V)
    (st : St V) (h : AllInv st) : AllInv (pubNotify subs nv ov st) := by
  rw [pubNotify_eq]
  exact h

/-- Every function of the notification core preserves the per-cell
registration invariant. -/
theorem allInv_pres (f : Nat) :
    (∀ (t : TrackerRef) (st : St V), AllInv st →
        AllInv (notifyTracker f t st))
    ∧ (∀ (cid : Nat) (st : St V), AllInv st →
        AllInv (computedNotify f cid st))
    ∧ (∀ (cid : Nat) (st : St V), AllInv st →
        AllInv (evaluate f cid st))
    ∧ (∀ (cid : Nat) (st : St V), AllInv st →
        AllInv ((runComputedFn f cid st).1))
    ∧ (∀ (e : Expr V) (st : St V), AllInv st →
        AllInv ((evalExpr f e st).1))
    ∧ (∀ (cid : Nat) (st : St V), AllInv st →
        AllInv ((computedGet f cid st).1))
    ∧ (∀ (eid : Nat) (st : St V), AllInv st →
        AllInv (effectNotify f eid st))
    ∧ (∀ (eid : Nat) (st : St V), AllInv st →
        AllInv (effectDispose f eid st))
    ∧ (∀ (eid : Nat) (st : St V), AllInv st →
        AllInv (runEffectBody f eid st))
    ∧ (∀ (acts : List Act) (st : St V), AllInv st →
        AllInv ((runActs f acts st).1))
    ∧ (∀ (body : List Act) (st : St V), AllInv st →
        AllInv ((effect f body st).1)) := by
  induction f with
  | zero =>
    refine ⟨?_, ?_, ?_, ?_, ?_, ?_, ?_, ?_, ?_, ?_, ?_⟩ <;>
      intro x st h <;> exact h
  | succ f ih =>
    obtain ⟨ihNT, ihCN, ihEV, ihFN, ihEX, ihCG, ihEN, ihED, ihRB, ihRA,
      ihEF⟩ := ih
    have hNT : ∀ (t : TrackerRef) (st : St V), AllInv st →
        AllInv (notifyTracker (f + 1) t st) := by
      intro t st h
      cases t with
      | cmp i => exact ihCN i st h
      | eff i => exact ihEN i st h
    have hEV : ∀ (cid : Nat) (st : St V), AllInv st →
        AllInv (evaluate (f + 1) cid st) := by
      intro cid st h
      simp only [evaluate]
      rcases hr : runComputedFn f cid
        (updComp (runCleanups (.cmp cid) (getComp st cid).cleanups st) cid
          fun c => { c with cleanups := [], dirty := false }) with ⟨st₃, v⟩
      have h₃ := ihFN cid (updComp (runCleanups (.cmp cid)
        (getComp st cid).cleanups st) cid
          fun c => { c with cleanups := [], dirty := false })
        (allInv_updComp _ cid _ (fun hs => ⟨hs.1, hs.2⟩)
          (allInv_runCleanups _ _ _ h))
      rw [hr] at h₃
      exact allInv_updComp _ cid _ (fun hs => ⟨hs.1, hs.2⟩) h₃
    have hCN : ∀ (cid : Nat) (st : St V), AllInv st →
        AllInv (computedNotify (f + 1) cid st) := by
      intro cid st h
      have h₁ : AllInv (updComp st cid fun c => { c with dirty := true }) :=
        allInv_updComp _ cid _ (fun hs => ⟨hs.1, hs.2⟩) h
      simp only [computedNotify]
      split
      · split
        · exact ihEV cid _ h₁
        · exact foldl_allInv _ (fun s t => ihNT t s) _ _ (ihEV cid _ h₁)
      · exact h₁
    have hFN : ∀ (cid : Nat) (st : St V), AllInv st →
        AllInv ((runComputedFn (f + 1) cid st).1) := by
      intro cid st h
      simp only [runComputedFn, runWithTracker]
      rcases hr : evalExpr f (getComp { st with
          trackerStack := .cmp cid :: st.trackerStack } cid).fn
        (logEv { st with trackerStack := .cmp cid :: st.trackerStack }
          (.evalC cid)) with ⟨st₂, v⟩
      have h₂ := ihEX (getComp { st with
          trackerStack := .cmp cid :: st.trackerStack } cid).fn
        (logEv { st with trackerStack := .cmp cid :: st.trackerStack }
          (.evalC cid)) h
      rw [hr] at h₂
      exact h₂
    have hEX : ∀ (e : Expr V) (st : St V), AllInv st →
        AllInv ((evalExpr (f + 1) e st).1) := by
      intro e st h
      cases e with
      | lit v => exact h
      | readS i => exact allInv_registerDep _ st h
      | readC i => exact ihCG i st h
      | app g e =>
        simp only [evalExpr]
        rcases hr : evalExpr f e st with ⟨st₁, v⟩
        have h₁ := ihEX e st h
        rw [hr] at h₁
        exact h₁
      | app2 g e₁ e₂ =>
        simp only [evalExpr]
        rcases hr₁ : evalExpr f e₁ st with ⟨st₁, v₁⟩
        have h₁ := ihEX e₁ st h
        rw [hr₁] at h₁
        rcases hr₂ : evalExpr f e₂ st₁ with ⟨st₂, v₂⟩
        have h₂ := ihEX e₂ st₁ h₁
        rw [hr₂] at h₂
        exact h₂
    have hCG : ∀ (cid : Nat) (st : St V), AllInv st →
        AllInv ((computedGet (f + 1) cid st).1) := by
      intro cid st h
      simp only [computedGet]
      split
      · split
        · exact allInv_registerDep _ _ (ihEV cid st h)
        · exact allInv_registerDep _ _
            (allInv_pubNotify _ _ _ _ (ihEV cid st h))
      · exact allInv_registerDep _ _ h
    have hED : ∀ (eid : Nat) (st : St V), AllInv st →
        AllInv (effectDispose (f + 1) eid st) := by
      intro eid st h
      simp only [effectDispose]
      have h₁ := foldl_allInv _ (fun s ch => ihED ch s)
        (getEff st eid).children st h
      exact allInv_runCleanups _ _ _ h₁
    have hRB : ∀ (eid : Nat) (st : St V), AllInv st →
        AllInv (runEffectBody (f + 1) eid st) := by
      intro eid st h
      simp only [runEffectBody, runWithTracker]
      rcases hr : runActs f (getEff { st with
          trackerStack := .eff eid :: st.trackerStack } eid).body
        { st with trackerStack := .eff eid :: st.trackerStack }
        with ⟨s₁, vals⟩
      have h₁ := ihRA (getEff { st with
          trackerStack := .eff eid :: st.trackerStack } eid).body
        { st with trackerStack := .eff eid :: st.trackerStack } h
      rw [hr] at h₁
      exact h₁
    have hEN : ∀ (eid : Nat) (st : St V), AllInv st →
        AllInv (effectNotify (f + 1) eid st) := by
      intro eid st h
      simp only [effectNotify]
      split
      · refine ihRB eid _ ?_
        refine allInv_runCleanups _ _ _ ?_
        exact foldl_allInv _ (fun s ch => ihED ch s) _ _ h
      · exact h
    have hEF : ∀ (body : List Act) (st : St V), AllInv st →
        AllInv ((effect (f + 1) body st).1) := by
      intro body st h
      simp only [effect]
      have h₁ : AllInv (runEffectBody f st.effs.length
          { st with effs := st.effs ++
            [{ active := true, cleanups := [], children := [],
               body := body }] }) := ihRB _ _ h
      rcases hc : getCurrentTracker (runEffectBody f st.effs.length
          { st with effs := st.effs ++
            [{ active := true, cleanups := [], children := [],
               body := body }] }) with _ | t
      · simpa only [hc] using h₁
      · rcases t with i | i
        · simpa only [hc] using h₁
        · simp only [hc]
          exact h₁
    have hRA : ∀ (acts : List Act) (st : St V), AllInv st →
        AllInv ((runActs (f + 1) acts st).1) := by
      intro acts st h
      match acts with
      | [] => exact h
      | .read (.sig i) :: rest =>
        simp only [runActs]
        rcases hr : runActs f rest (signalGet i st).1 with ⟨st₂, vs⟩
        have h₂ := ihRA rest (signalGet i st).1 (allInv_registerDep _ st h)
        rw [hr] at h₂
        exact h₂
      | .read (.cmp i) :: rest =>
        simp only [runActs]
        rcases hg : computedGet f i st with ⟨st₁, v⟩
        have h₁ := ihCG i st h
        rw [hg] at h₁
        rcases hr : runActs f rest st₁ with ⟨st₂, vs⟩
        have h₂ := ihRA rest st₁ h₁
        rw [hr] at h₂
        exact h₂
      | .mk body :: rest =>
        simp only [runActs]
        rcases hg : effect f body st with ⟨st₁, eid⟩
        have h₁ := ihEF body st h
        rw [hg] at h₁
        exact ihRA rest st₁ h₁
    exact ⟨hNT, hCN, hEV, hFN, hEX, hCG, hEN, hED, hRB, hRA, hEF⟩

theorem allInv_flushPublicSubs (sid : Nat) (st : St V) (h : AllInv st) :
    AllInv (flushPublicSubs sid st) := by
  rcases hp : (getSig st sid).preBatch with _ | pb <;>
    simp only [flushPublicSubs, hp]
  · exact allInv_pubNotify _ _ _ _ h
  · split
    · exact allInv_updSig _ _ _ (fun hs => ⟨hs.1, hs.2⟩) h
    · exact allInv_pubNotify _ _ _ _
        (allInv_updSig _ _ _ (fun hs => ⟨hs.1, hs.2⟩) h)

theorem allInv_drain (f : Nat) :
    ∀ st : St V, AllInv st → AllInv (drain f st) := by
  induction f with
  | zero => intro st h; exact h
  | succ f ih =>
    intro st h
    simp only [drain]
    split
    · exact h
    · refine ih _ (foldl_allInv _ (fun s th => ?_) _ _ h)
      intro hs
      cases th with
      | flushPub sid => exact allInv_flushPublicSubs sid s hs
      | notify t => exact (allInv_pres f).1 t s hs

/-- Every write preserves the registration invariant. -/
theorem allInv_signalSet (f sid : Nat) (v : V) (st : St V) (h : AllInv st) :
    AllInv (signalSet f sid v st) := by
  simp only [signalSet]
  split
  · exact h
  · have h₁ : AllInv (updSig st sid fun d => { d with value := v }) :=
      allInv_updSig _ _ _ (fun hs => ⟨hs.1, hs.2⟩) h
    split
    · refine foldl_allInv
        (fun s t => { s with pending := insertAbsent s.pending (.notify t) })
        (fun s t hs => hs) _ _ ?_
      split
      · have h₂ : AllInv (updSig
            (updSig st sid fun d => { d with value := v }) sid
            (fun d => { d with preBatch := some (getSig st sid).value })) :=
          allInv_updSig _ _ _ (fun hs => ⟨hs.1, hs.2⟩) h₁
        exact h₂
      · exact h₁
    · simp only [batch]
      split
      · refine allInv_drain f _ ?_
        refine allInv_pubNotify _ _ _ _ ?_
        exact foldl_allInv _ (fun s t => (allInv_pres f).1 t s) _ _ h₁
      · refine allInv_pubNotify _ _ _ _ ?_
        exact foldl_allInv _ (fun s t => (allInv_pres f).1 t s) _ _ h₁

theorem getSig_oor (st : St V) (i : Nat) (h : ¬ i < st.sigs.length) :
    getSig st i = dfltSig := by
  simp [getSig, List.getD, List.getElem?_eq_none (by omega : st.sigs.length ≤ i)]

theorem getComp_oor (st : St V) (i : Nat) (h : ¬ i < st.comps.length) :
    getComp st i = dfltComp := by
  simp [getComp, List.getD,
    List.getElem?_eq_none (by omega : st.comps.length ≤ i)]

/-- `AllInv` follows from checking the cells actually present. -/
theorem allInv_of_bounded (st : St V)
    (hs : ∀ i < st.sigs.length, SigInv (getSig st i))
    (hc : ∀ i < st.comps.length, CompInv (getComp st i)) : AllInv st := by
  constructor
  · intro i
    by_cases h : i < st.sigs.length
    · exact hs i h
    · rw [getSig_oor st i h]
      exact sigInv_dflt
  · intro i
    by_cases h : i < st.comps.length
    · exact hc i h
    · rw [getComp_oor st i h]
      exact compInv_dflt

/-- C7: at-most-once registration.  Reads of either kind of cell and writes
preserve the invariant that a tracker's notify appears at most once in each
cell's internal subscriber set (and is covered by the membership record);
and a read by an already-registered tracker leaves the cell untouched — it
is not registered again while its cleanup for this cell has not run. -/
theorem C7_at_most_once_registration :
    (∀ (sid : Nat) (st : St V), AllInv st → AllInv ((signalGet sid st).1))
      ∧ (∀ (f cid : Nat) (st : St V), AllInv st →
          AllInv ((computedGet f cid st).1))
      ∧ (∀ (f sid : Nat) (v : V) (st : St V), AllInv st →
          AllInv (signalSet f sid v st))
      ∧ (∀ (sid : Nat) (st : St V) (t : TrackerRef),
          getCurrentTracker st = some t →
          t ∈ (getSig st sid).trackersR →
          signalGet sid st = (st, (getSig st sid).value))
      ∧ (∀ (f cid : Nat) (st : St V) (t : TrackerRef),
          getCurrentTracker st = some t →
          t ∈ (getComp st cid).trackersR →
          (getComp st cid).dirty = false →
          computedGet f cid st = (st, (getComp st cid).value)) := by
  refine ⟨?_, ?_, ?_, ?_, ?_⟩
  · intro sid st h
    exact allInv_registerDep _ st h
  · intro f cid st h
    exact (allInv_pres f).2.2.2.2.2.1 cid st h
  · intro f sid v st h
    exact allInv_signalSet f sid v st h
  · intro sid st t h1 h2
    simp [signalGet, registerDep, h1, h2]
  · intro f cid st t h1 h2 hd
    cases f with
    | zero => rfl
    | succ f => simp [computedGet, registerDep, h1, h2, hd]

theorem regSt_eq : regSt
    = { sigs := [⟨3, natIs, [.eff 0], [.eff 0], [], none⟩], comps := [],
        effs := [⟨true, [.sig 0], [], [.read (.sig 0)]⟩], trackerStack := [],
        isTracking := true, batchDepth := 0, pending := [],
        log := [.effRun 0 [3]] } := by
  simp [regSt, signal, effect, runEffectBody, runActs, signalGet,
    registerDep, pushCleanup, getSig, getEff, updSig, updEff, logEv,
    getCurrentTracker, runWithTracker, insertAbsent, St.empty, dfltSig,
    dfltEff]

/-- Witness for C7: the invariant holds in `regSt`, is preserved by a read
and by a write, and a second read by the already-registered effect is a
no-op on the state. -/
theorem C7_witness :
    AllInv regSt
      ∧ AllInv ((signalGet 0 regSt).1)
      ∧ AllInv (signalSet 5 0 9 regSt)
      ∧ (getCurrentTracker regStT = some (.eff 0)
        ∧ (TrackerRef.eff 0) ∈ (getSig regStT 0).trackersR
        ∧ signalGet 0 regStT = (regStT, (getSig regStT 0).value)) := by
  have hInv : AllInv regSt := by
    rw [regSt_eq]
    apply allInv_of_bounded
    · intro i hi
      simp only [List.length_singleton, Nat.lt_one_iff] at hi
      subst hi
      constructor <;> decide
    · intro i hi
      simp at hi
  refine ⟨hInv, C7_at_most_once_registration.1 0 regSt hInv,
    C7_at_most_once_registration.2.2.1 5 0 9 regSt hInv, rfl, ?_, ?_⟩
  · rw [show getSig regStT 0 = getSig regSt 0 from rfl, regSt_eq]
    decide
  · refine C7_at_most_once_registration.2.2.2.1 0 regStT (.eff 0) rfl ?_
    rw [show getSig regStT 0 = getSig regSt 0 from rfl, regSt_eq]
    decide

/-! ## C3: disposal is recursive and terminal -/

theorem shrinks_refl (st : St V) : Shrinks st st :=
  ⟨fun _ => List.Subset.refl _, fun _ h => h⟩

theorem shrinks_trans {s₁ s₂ s₃ : St V} (h₁ : Shrinks s₁ s₂)
    (h₂ : Shrinks s₂ s₃) : Shrinks s₁ s₃ :=
  ⟨fun y => (h₂.1 y).trans (h₁.1 y), fun y h => h₁.2 y (h₂.2 y h)⟩

theorem reach_mono {s₁ s₂ : St V}
    (h : ∀ y, childrenOf s₂ y ⊆ childrenOf s₁ y) {y d : Nat}
    (hr : Reaches s₂ y d) : Reaches s₁ y d := by
  induction hr with
  | refl e => exact .refl e
  | step hc _ ih => exact .step (h _ hc) ih

theorem reachPres_refl (st : St V) : ReachPres st st :=
  fun _ _ h => Or.inl h

theorem reachPres_trans {s₁ s₂ s₃ : St V} (h₁ : ReachPres s₁ s₂)
    (h₂ : ReachPres s₂ s₃) (hf : ∀ y, activeOf s₃ y = true →
      activeOf s₂ y = true) : ReachPres s₁ s₃ := by
  intro y d hr
  rcases h₁ y d hr with hr₂ | hdead
  · exact h₂ y d hr₂
  · right
    cases hs : activeOf s₃ d with
    | false => rfl
    | true => rw [hf d hs] at hdead; cases hdead

theorem edgesLt_of_shrinks {H : Nat → Nat} {s₁ s₂ : St V}
    (hE : EdgesLt H s₁) (hs : Shrinks s₁ s₂) : EdgesLt H s₂ :=
  fun x c hc => hE x c (hs.1 x hc)

/-! Effect-heap access lemmas. -/

theorem getEff_updEff_self (st : St V) (j : Nat) (g : EffectData → EffectData)
    (h : j < st.effs.length) : getEff (updEff st j g) j = g (getEff st j) := by
  simp [getEff, updEff, List.getD, List.getElem?_set_self, h]

theorem getEff_updEff_ne (st : St V) (i j : Nat) (g : EffectData → EffectData)
    (h : i ≠ j) : getEff (updEff st j g) i = getEff st i := by
  simp [getEff, updEff, List.getD, List.getElem?_set_ne, h.symm]

theorem updEff_oor (st : St V) (j : Nat) (g : EffectData → EffectData)
    (h : ¬ j < st.effs.length) : updEff st j g = st := by
  have hs : st.effs.set j (g (getEff st j)) = st.effs :=
    List.set_eq_of_length_le (by omega)
  simp [updEff, hs]

theorem getEff_removeReg (c : CellRef) (t : TrackerRef) (st : St V)
    (y : Nat) : getEff (removeReg c t st) y = getEff st y := by
  cases c <;> rfl

theorem getEff_runCleanups (t : TrackerRef) (cls : List CellRef) :
    ∀ (st : St V) (y : Nat), getEff (runCleanups t cls st) y = getEff st y := by
  induction cls with
  | nil => intro st y; rfl
  | cons c cls ih =>
    intro st y
    rw [runCleanups, List.foldl_cons,
      show List.foldl (fun s c => removeReg c t s) (removeReg c t st) cls
        = runCleanups t cls (removeReg c t st) from rfl, ih,
      getEff_removeReg]

/-- Case split for reading an effect after an update of effect `j`. -/
theorem getEff_updEff_cases (st : St V) (i j : Nat)
    (g : EffectData → EffectData) :
    getEff (updEff st j g) i = getEff st i
      ∨ (i = j ∧ getEff (updEff st j g) i = g (getEff st i)) := by
  by_cases hij : i = j
  · subst hij
    by_cases hr : i < st.effs.length
    · exact Or.inr ⟨rfl, getEff_updEff_self st i g hr⟩
    · exact Or.inl (by rw [updEff_oor st i g hr])
  · exact Or.inl (getEff_updEff_ne st i j g hij)

theorem childrenOf_updEff_pres (st : St V) (j : Nat)
    (g : EffectData → EffectData) (hg : ∀ d, (g d).children = d.children)
    (y : Nat) : childrenOf (updEff st j g) y = childrenOf st y := by
  rcases getEff_updEff_cases st y j g with h | ⟨_, h⟩ <;>
    rw [childrenOf, h, childrenOf]
  rw [hg]

theorem activeOf_updEff_pres (st : St V) (j : Nat)
    (g : EffectData → EffectData) (hg : ∀ d, (g d).active = d.active)
    (y : Nat) : activeOf (updEff st j g) y = activeOf st y := by
  rcases getEff_updEff_cases st y j g with h | ⟨_, h⟩ <;>
    rw [activeOf, h, activeOf]
  rw [hg]

theorem childrenOf_runCleanups (t : TrackerRef) (cls : List CellRef)
    (st : St V) (y : Nat) :
    childrenOf (runCleanups t cls st) y = childrenOf st y := by
  rw [childrenOf, getEff_runCleanups, childrenOf]

theorem activeOf_runCleanups (t : TrackerRef) (cls : List CellRef)
    (st : St V) (y : Nat) :
    activeOf (runCleanups t cls st) y = activeOf st y := by
  rw [activeOf, getEff_runCleanups, activeOf]

theorem childrenOf_updEff_act (st : St V) (j y : Nat) :
    childrenOf (updEff st j fun d => { d with active := false }) y
      = childrenOf st y :=
  childrenOf_updEff_pres st j (fun d => { d with active := false })
    (fun _ => rfl) y

theorem childrenOf_updEff_clr (st : St V) (j y : Nat) :
    childrenOf (updEff st j fun d => { d with cleanups := [] }) y
      = childrenOf st y :=
  childrenOf_updEff_pres st j (fun d => { d with cleanups := [] })
    (fun _ => rfl) y

theorem activeOf_updEff_clr (st : St V) (j y : Nat) :
    activeOf (updEff st j fun d => { d with cleanups := [] }) y
      = activeOf st y :=
  activeOf_updEff_pres st j (fun d => { d with cleanups := [] })
    (fun _ => rfl) y

theorem activeOf_updEff_kids (st : St V) (j y : Nat) :
    activeOf (updEff st j fun d => { d with children := [] }) y
      = activeOf st y :=
  activeOf_updEff_pres st j (fun d => { d with children := [] })
    (fun _ => rfl) y

/-- The tail of `dispose` — clear children, run and clear cleanups, set
`active := false` — only removes. -/
theorem dispose_tail_shrinks (x : Nat) (stA : St V) :
    Shrinks stA
      (updEff (updEff (runCleanups (.eff x)
          (getEff (updEff stA x fun d => { d with children := [] })
            x).cleanups
          (updEff stA x fun d => { d with children := [] })) x
            fun d => { d with cleanups := [] }) x
          fun d => { d with active := false }) := by
  constructor
  · intro y
    rw [childrenOf_updEff_act, childrenOf_updEff_clr, childrenOf_runCleanups]
    rcases getEff_updEff_cases stA y x
        (fun d => { d with children := [] }) with h | ⟨_, h⟩ <;>
      rw [childrenOf, h]
    · exact List.Subset.refl _
    · intro z hz
      simp at hz
  · intro y hy
    rcases getEff_updEff_cases (updEff (runCleanups (.eff x)
        (getEff (updEff stA x fun d => { d with children := [] })
          x).cleanups
        (updEff stA x fun d => { d with children := [] })) x
          fun d => { d with cleanups := [] }) y x
        (fun d => { d with active := false }) with h | ⟨_, h⟩
    · rw [activeOf, h] at hy
      rw [show ((getEff (updEff (runCleanups (.eff x)
          (getEff (updEff stA x fun d => { d with children := [] })
            x).cleanups
          (updEff stA x fun d => { d with children := [] })) x
            fun d => { d with cleanups := [] }) y)).active
          = activeOf (updEff (runCleanups (.eff x)
          (getEff (updEff stA x fun d => { d with children := [] })
            x).cleanups
          (updEff stA x fun d => { d with children := [] })) x
            (fun d => { d with cleanups := [] })) y from rfl,
        activeOf_updEff_clr, activeOf_runCleanups,
        activeOf_updEff_kids] at hy
      exact hy
    · rw [activeOf, h] at hy
      cases hy

/-- Disposal never raises an `active` flag and never adds an ownership
edge. -/
theorem dispose_shrinks (f : Nat) :
    ∀ (x : Nat) (st : St V), Shrinks st (effectDispose f x st) := by
  induction f with
  | zero => intro x st; exact shrinks_refl st
  | succ f ih =>
    intro x st
    have hfold : ∀ (cs : List Nat) (st₀ : St V),
        Shrinks st₀ (cs.foldl (fun s ch => effectDispose f ch s) st₀) := by
      intro cs
      induction cs with
      | nil => intro st₀; exact shrinks_refl st₀
      | cons c cs ihc =>
        intro st₀
        rw [List.foldl_cons]
        exact shrinks_trans (ih c st₀) (ihc (effectDispose f c st₀))
    exact shrinks_trans (hfold (getEff st x).children st)
      (dispose_tail_shrinks x _)

theorem foldl_dispose_shrinks (f : Nat) (cs : List Nat) :
    ∀ st₀ : St V, Shrinks st₀ (cs.foldl (fun s ch => effectDispose f ch s) st₀) := by
  induction cs with
  | nil => intro st₀; exact shrinks_refl st₀
  | cons c cs ihc =>
    intro st₀
    rw [List.foldl_cons]
    exact shrinks_trans (dispose_shrinks f c st₀) (ihc (effectDispose f c st₀))

theorem getEff_oor (st : St V) (i : Nat) (h : ¬ i < st.effs.length) :
    getEff st i = dfltEff := by
  simp [getEff, List.getD,
    List.getElem?_eq_none (by omega : st.effs.length ≤ i)]

theorem childrenOf_updEff_ne (st : St V) (i j : Nat)
    (g : EffectData → EffectData) (h : i ≠ j) :
    childrenOf (updEff st j g) i = childrenOf st i := by
  rw [childrenOf, getEff_updEff_ne st i j g h, childrenOf]

/-- `Reaches` only depends on the ownership edges. -/
theorem reach_congr {s₁ s₂ : St V}
    (h : ∀ y, childrenOf s₁ y = childrenOf s₂ y) {y d : Nat}
    (hr : Reaches s₁ y d) : Reaches s₂ y d := by
  induction hr with
  | refl e => exact .refl e
  | step hc _ ih => exact .step (h _ ▸ hc) ih

/-- Clearing `x`'s children preserves every path that does not pass through
`x`; a path through `x` enters one of `x`'s children. -/
theorem reach_clear (stA : St V) (x : Nat) :
    ∀ y d, Reaches stA y d →
      Reaches (updEff stA x fun e => { e with children := [] }) y d
        ∨ ∃ c ∈ childrenOf stA x, Reaches stA c d := by
  intro y d hr
  induction hr with
  | refl e => exact Or.inl (.refl e)
  | @step e c₀ d hc hr ih =>
    by_cases he : e = x
    · subst he
      exact Or.inr ⟨c₀, hc, hr⟩
    · rcases ih with hl | hr'
      · exact Or.inl (.step (by rwa [childrenOf_updEff_ne _ _ _ _ he]) hl)
      · exact Or.inr hr'

/-- Children are unchanged by the cleanup part of the `dispose` tail. -/
theorem childrenOf_dispose_tail (x : Nat) (stA : St V) (y : Nat) :
    childrenOf (updEff (updEff (runCleanups (.eff x)
        (getEff (updEff stA x fun d => { d with children := [] })
          x).cleanups
        (updEff stA x fun d => { d with children := [] })) x
          fun d => { d with cleanups := [] }) x
        (fun d => { d with active := false })) y
      = childrenOf (updEff stA x fun d => { d with children := [] }) y := by
  rw [childrenOf_updEff_act, childrenOf_updEff_clr, childrenOf_runCleanups]

/-- Disposal with enough fuel for the ownership heights: every path either
survives or ends deactivated, and everything reachable from the disposed
reaction is deactivated. -/
theorem dispose_kill (f : Nat) : ∀ (st : St V) (x : Nat) (H : Nat → Nat),
    EdgesLt H st → H x < f →
    ReachPres st (effectDispose f x st)
      ∧ (∀ d, Reaches st x d →
          activeOf (effectDispose f x st) d = false) := by
  induction f with
  | zero => intro st x H _ hx; exact absurd hx (by omega)
  | succ f ih =>
    intro st x H hE hx
    have hb : ∀ c ∈ (getEff st x).children, H c < f := by
      intro c hc
      have h₁ := hE x c hc
      omega
    have hfold : ∀ (cs' : List Nat) (st₀ : St V), EdgesLt H st₀ →
        (∀ c ∈ cs', H c < f) →
        ReachPres st₀ (cs'.foldl (fun s ch => effectDispose f ch s) st₀)
          ∧ (∀ c ∈ cs', ∀ d, Reaches st₀ c d →
              activeOf (cs'.foldl (fun s ch => effectDispose f ch s) st₀) d
                = false) := by
      intro cs'
      induction cs' with
      | nil =>
        intro st₀ _ _
        exact ⟨reachPres_refl st₀, by simp⟩
      | cons c cs' ihc =>
        intro st₀ hE₀ hbnd
        rw [List.foldl_cons]
        have hc₁ := ih st₀ c H hE₀ (hbnd c (by simp))
        have hsh₁ : Shrinks st₀ (effectDispose f c st₀) :=
          dispose_shrinks f c st₀
        have hrec := ihc (effectDispose f c st₀)
          (edgesLt_of_shrinks hE₀ hsh₁)
          (fun c' h' => hbnd c' (by simp [h']))
        have hshA : Shrinks (effectDispose f c st₀)
            (cs'.foldl (fun s ch => effectDispose f ch s)
              (effectDispose f c st₀)) :=
          foldl_dispose_shrinks f cs' _
        constructor
        · exact reachPres_trans hc₁.1 hrec.1 (fun y hy => hshA.2 y hy)
        · intro c₀ hc₀ d hr
          rcases List.mem_cons.mp hc₀ with rfl | hmem
          · have hdead := hc₁.2 d hr
            cases hA : activeOf (cs'.foldl
                (fun s ch => effectDispose f ch s)
                (effectDispose f c₀ st₀)) d with
            | false => rfl
            | true => rw [hshA.2 d hA] at hdead; cases hdead
          · rcases hc₁.1 c₀ d hr with hr₁ | hdead
            · exact hrec.2 c₀ hmem d hr₁
            · cases hA : activeOf (cs'.foldl
                  (fun s ch => effectDispose f ch s)
                  (effectDispose f c st₀)) d with
              | false => rfl
              | true => rw [hshA.2 d hA] at hdead; cases hdead
    have hA := hfold (getEff st x).children st hE hb
    have hshA : Shrinks st ((getEff st x).children.foldl
        (fun s ch => effectDispose f ch s) st) :=
      foldl_dispose_shrinks f _ st
    set stA := (getEff st x).children.foldl
      (fun s ch => effectDispose f ch s) st with hstA
    have hshT : Shrinks stA (effectDispose (f + 1) x st) := by
      rw [show effectDispose (f + 1) x st
        = updEff (updEff (runCleanups (.eff x)
            (getEff (updEff stA x fun d => { d with children := [] })
              x).cleanups
            (updEff stA x fun d => { d with children := [] })) x
              fun d => { d with cleanups := [] }) x
            (fun d => { d with active := false }) from rfl]
      exact dispose_tail_shrinks x stA
    have hdeadA_T : ∀ d, activeOf stA d = false →
        activeOf (effectDispose (f + 1) x st) d = false := by
      intro d hd
      cases hT : activeOf (effectDispose (f + 1) x st) d with
      | false => rfl
      | true => rw [hshT.2 d hT] at hd; cases hd
    have hkills : ∀ d, Reaches st x d →
        activeOf (effectDispose (f + 1) x st) d = false := by
      intro d hr
      cases hr with
      | refl =>
        rw [show effectDispose (f + 1) x st
          = updEff (updEff (runCleanups (.eff x)
              (getEff (updEff stA x fun e => { e with children := [] })
                x).cleanups
              (updEff stA x fun e => { e with children := [] })) x
                fun e => { e with cleanups := [] }) x
              (fun e => { e with active := false }) from rfl]
        by_cases hrng : x < (updEff (runCleanups (.eff x)
            (getEff (updEff stA x fun e => { e with children := [] })
              x).cleanups
            (updEff stA x fun e => { e with children := [] })) x
              fun e => { e with cleanups := [] }).effs.length
        · rw [activeOf, getEff_updEff_self _ _ _ hrng]
        · rw [activeOf, updEff_oor _ _ _ hrng, getEff_oor _ _ hrng]
          rfl
      | step hc hr' => exact hdeadA_T _ (hA.2 _ hc _ hr')
    refine ⟨?_, hkills⟩
    intro y d hr
    rcases hA.1 y d hr with hrA | hdead
    · rcases reach_clear stA x y d hrA with hl | ⟨c, hcmem, hrc⟩
      · left
        refine reach_congr (fun y => ?_) hl
        exact (childrenOf_dispose_tail x stA y).symm
      · right
        have hcs : c ∈ (getEff st x).children := hshA.1 x hcmem
        have hrst : Reaches st c d := reach_mono hshA.1 hrc
        exact hdeadA_T d (hA.2 c hcs d hrst)
    · right
      exact hdeadA_T d hdead

/-! ## C3, continued: once inactive, no write ever re-runs a reaction -/

theorem countRuns_append (e : Nat) (l₁ l₂ : List (LogEntry V)) :
    countRuns e (l₁ ++ l₂) = countRuns e l₁ + countRuns e l₂ := by
  simp [countRuns, effRuns]

theorem countRuns_pub (e p : Nat) (nv : V) (ov : Option V) :
    countRuns e [(.pub p nv ov : LogEntry V)] = 0 := by
  simp [countRuns, effRuns]

theorem countRuns_evalC (e cid : Nat) :
    countRuns e [(.evalC cid : LogEntry V)] = 0 := by
  simp [countRuns, effRuns]

theorem countRuns_effRun_ne (e eid : Nat) (vs : List V) (h : eid ≠ e) :
    countRuns e [(.effRun eid vs : LogEntry V)] = 0 := by
  simp [countRuns, effRuns, h]

/-- Frame facts for `registerDep` on the effect heap and log. -/
theorem registerDep_inact (c : CellRef) (st : St V) (e : Nat) :
    (registerDep c st).effs.length = st.effs.length
      ∧ activeOf (registerDep c st) e = activeOf st e
      ∧ (registerDep c st).log = st.log := by
  rcases hc : getCurrentTracker st with _ | t
  · simp [registerDep, hc]
  · rcases c with i | i <;> rcases t with j | j <;>
      simp only [registerDep, hc, pushCleanup] <;> split <;>
      refine ⟨by simp [updEff, updSig, updComp], ?_, rfl⟩ <;>
      first
        | rfl
        | exact activeOf_updEff_pres _ j
            (fun d => { d with cleanups := d.cleanups ++ [CellRef.sig i] })
            (fun _ => rfl) e
        | exact activeOf_updEff_pres _ j
            (fun d => { d with cleanups := d.cleanups ++ [CellRef.cmp i] })
            (fun _ => rfl) e

theorem activeOf_pubNotify (subs : List Nat) (nv : V) (ov : Option V)
    (st : St V) (e : Nat) :
    activeOf (pubNotify subs nv ov st) e = activeOf st e := by
  rw [pubNotify_eq]
  rfl

theorem countRuns_pubNotify (e : Nat) (subs : List Nat) (nv : V)
    (ov : Option V) (st : St V) :
    countRuns e (pubNotify subs nv ov st).log = countRuns e st.log := by
  rw [pubNotify_eq]
  show countRuns e (st.log ++ subs.map _) = countRuns e st.log
  rw [countRuns_append]
  have : countRuns e (subs.map fun p => (.pub p nv ov : LogEntry V)) = 0 := by
    induction subs with
    | nil => rfl
    | cons p ps ih =>
      rw [List.map_cons, show (LogEntry.pub p nv ov : LogEntry V)
          :: ps.map (fun p => .pub p nv ov)
        = [(.pub p nv ov : LogEntry V)] ++ ps.map (fun p => .pub p nv ov)
        from rfl, countRuns_append, ih, countRuns_pub]
  rw [this]
  rfl

/-- `dispose` writes nothing to the log. -/
theorem dispose_log (f : Nat) :
    ∀ (x : Nat) (st : St V), (effectDispose f x st).log = st.log := by
  induction f with
  | zero => intro x st; rfl
  | succ f ih =>
    intro x st
    have hfold : ∀ (cs : List Nat) (st₀ : St V),
        (cs.foldl (fun s ch => effectDispose f ch s) st₀).log = st₀.log := by
      intro cs
      induction cs with
      | nil => intro st₀; rfl
      | cons c cs ihc =>
        intro st₀
        rw [List.foldl_cons, ihc, ih]
    show (updEff (updEff (runCleanups _ _ _) _ _) _ _).log = _
    have hlog : ∀ (t : TrackerRef) (cls : List CellRef) (s : St V),
        (runCleanups t cls s).log = s.log := by
      intro t cls
      induction cls with
      | nil => intro s; rfl
      | cons c cls ihc =>
        intro s
        rw [runCleanups, List.foldl_cons,
          show List.foldl (fun s c => removeReg c t s) (removeReg c t s) cls
            = runCleanups t cls (removeReg c t s) from rfl, ihc]
        cases c <;> rfl
    rw [show (updEff (updEff (runCleanups (.eff x)
        (getEff (updEff ((getEff st x).children.foldl
            (fun s ch => effectDispose f ch s) st) x
          fun d => { d with children := [] }) x).cleanups
        (updEff ((getEff st x).children.foldl
            (fun s ch => effectDispose f ch s) st) x
          fun d => { d with children := [] })) x
            fun d => { d with cleanups := [] }) x
          fun d => { d with active := false }).log
      = (runCleanups (.eff x)
        (getEff (updEff ((getEff st x).children.foldl
            (fun s ch => effectDispose f ch s) st) x
          fun d => { d with children := [] }) x).cleanups
        (updEff ((getEff st x).children.foldl
            (fun s ch => effectDispose f ch s) st) x
          fun d => { d with children := [] })).log from rfl,
      hlog]
    show ((getEff st x).children.foldl
        (fun s ch => effectDispose f ch s) st).log = st.log
    exact hfold _ st

/-- `dispose` does not change the number of reactions in the heap. -/
theorem dispose_len (f : Nat) :
    ∀ (x : Nat) (st : St V),
      (effectDispose f x st).effs.length = st.effs.length := by
  induction f with
  | zero => intro x st; rfl
  | succ f ih =>
    intro x st
    have hfold : ∀ (cs : List Nat) (st₀ : St V),
        (cs.foldl (fun s ch => effectDispose f ch s) st₀).effs.length
          = st₀.effs.length := by
      intro cs
      induction cs with
      | nil => intro st₀; rfl
      | cons c cs ihc =>
        intro st₀
        rw [List.foldl_cons, ihc, ih]
    have hcl : ∀ (t : TrackerRef) (cls : List CellRef) (s : St V),
        (runCleanups t cls s).effs.length = s.effs.length := by
      intro t cls
      induction cls with
      | nil => intro s; rfl
      | cons c cls ihc =>
        intro s
        rw [runCleanups, List.foldl_cons,
          show List.foldl (fun s c => removeReg c t s) (removeReg c t s) cls
            = runCleanups t cls (removeReg c t s) from rfl, ihc]
        cases c <;> simp [removeReg, updSig, updComp]
    show (updEff (updEff (runCleanups _ _ _) _ _) _ _).effs.length = _
    simp only [updEff, List.length_set]
    rw [hcl]
    simp only [updEff, List.length_set]
    exact hfold _ st

/-- `dispose` never re-activates a reaction. -/
theorem dispose_inactive (f x : Nat) (st : St V) (e : Nat)
    (h : activeOf st e = false) :
    activeOf (effectDispose f x st) e = false := by
  cases hA : activeOf (effectDispose f x st) e with
  | false => rfl
  | true => rw [(dispose_shrinks f x st).2 e hA] at h; cases h

theorem runCleanups_effs (t : TrackerRef) (cls : List CellRef) :
    ∀ s : St V, (runCleanups t cls s).effs = s.effs := by
  induction cls with
  | nil => intro s; rfl
  | cons c cls ihc =>
    intro s
    rw [runCleanups, List.foldl_cons,
      show List.foldl (fun s c => removeReg c t s) (removeReg c t s) cls
        = runCleanups t cls (removeReg c t s) from rfl, ihc]
    cases c <;> rfl

theorem runCleanups_log (t : TrackerRef) (cls : List CellRef) :
    ∀ s : St V, (runCleanups t cls s).log = s.log := by
  induction cls with
  | nil => intro s; rfl
  | cons c cls ihc =>
    intro s
    rw [runCleanups, List.foldl_cons,
      show List.foldl (fun s c => removeReg c t s) (removeReg c t s) cls
        = runCleanups t cls (removeReg c t s) from rfl, ihc]
    cases c <;> rfl

theorem pubNotify_effs (subs : List Nat) (nv : V) (ov : Option V)
    (st : St V) : (pubNotify subs nv ov st).effs = st.effs := by
  rw [pubNotify_eq]

theorem getEff_append_lt (st : St V) (x : EffectData) (e : Nat)
    (h : e < st.effs.length) :
    getEff { st with effs := st.effs ++ [x] } e = getEff st e := by
  simp [getEff, List.getD, List.getElem?_append_left h]

theorem inactStep_trans {e : Nat} {s₁ s₂ s₃ : St V}
    (h₁ : InactStep e s₁ s₂) (h₂ : InactStep e s₂ s₃) :
    InactStep e s₁ s₃ :=
  ⟨h₁.1.trans h₂.1, h₂.2.1, h₂.2.2.trans h₁.2.2⟩

/-- The whole notification core preserves inactivity: a reaction that is
already inactive is never re-activated and its body never runs again. -/
theorem inact_pres (f : Nat) (e : Nat) :
    (∀ (t : TrackerRef) (st : St V), e < st.effs.length →
        activeOf st e = false → InactStep e st (notifyTracker f t st))
    ∧ (∀ (cid : Nat) (st : St V), e < st.effs.length →
        activeOf st e = false → InactStep e st (computedNotify f cid st))
    ∧ (∀ (cid : Nat) (st : St V), e < st.effs.length →
        activeOf st e = false → InactStep e st (evaluate f cid st))
    ∧ (∀ (cid : Nat) (st : St V), e < st.effs.length →
        activeOf st e = false → InactStep e st ((runComputedFn f cid st).1))
    ∧ (∀ (ex : Expr V) (st : St V), e < st.effs.length →
        activeOf st e = false → InactStep e st ((evalExpr f ex st).1))
    ∧ (∀ (cid : Nat) (st : St V), e < st.effs.length →
        activeOf st e = false → InactStep e st ((computedGet f cid st).1))
    ∧ (∀ (eid : Nat) (st : St V), e < st.effs.length →
        activeOf st e = false → InactStep e st (effectNotify f eid st))
    ∧ (∀ (eid : Nat) (st : St V), eid ≠ e → e < st.effs.length →
        activeOf st e = false → InactStep e st (runEffectBody f eid st))
    ∧ (∀ (acts : List Act) (st : St V), e < st.effs.length →
        activeOf st e = false → InactStep e st ((runActs f acts st).1))
    ∧ (∀ (body : List Act) (st : St V), e < st.effs.length →
        activeOf st e = false → InactStep e st ((effect f body st).1)) := by
  induction f with
  | zero =>
    refine ⟨?_, ?_, ?_, ?_, ?_, ?_, ?_, ?_, ?_, ?_⟩ <;>
      intro x st <;>
      first
        | (intro _ h2; exact ⟨Nat.le_refl _, h2, rfl⟩)
        | (intro _ _ h2; exact ⟨Nat.le_refl _, h2, rfl⟩)
  | succ f ih =>
    obtain ⟨ihNT, ihCN, ihEV, ihFN, ihEX, ihCG, ihEN, ihRB, ihRA, ihEF⟩ := ih
    have hED : ∀ (g eid : Nat) (st : St V), activeOf st e = false →
        InactStep e st (effectDispose g eid st) := by
      intro g eid st h2
      exact ⟨le_of_eq (dispose_len g eid st).symm,
        dispose_inactive g eid st e h2, by rw [dispose_log]⟩
    have hpn : ∀ (subs : List Nat) (nv : V) (ov : Option V) (st₀ : St V),
        activeOf st₀ e = false →
        InactStep e st₀ (pubNotify subs nv ov st₀) := by
      intro subs nv ov st₀ g2
      refine ⟨le_of_eq ?_, ?_, ?_⟩
      · rw [pubNotify_effs]
      · rw [activeOf_pubNotify]
        exact g2
      · exact countRuns_pubNotify e subs nv ov st₀
    have hEV : ∀ (cid : Nat) (st : St V), e < st.effs.length →
        activeOf st e = false → InactStep e st (evaluate (f + 1) cid st) := by
      intro cid st h1 h2
      simp only [evaluate]
      rcases hr : runComputedFn f cid (updComp (runCleanups (.cmp cid) (getComp st cid).cleanups st) cid fun c => { c with cleanups := [], dirty := false }) with ⟨st₃, v⟩
      have hmid : InactStep e st (updComp (runCleanups (.cmp cid) (getComp st cid).cleanups st) cid fun c => { c with cleanups := [], dirty := false }) := by
        refine ⟨?_, ?_, ?_⟩
        · show st.effs.length ≤
            (runCleanups (.cmp cid) (getComp st cid).cleanups st).effs.length
          rw [runCleanups_effs]
        · show (getEff (runCleanups (.cmp cid) (getComp st cid).cleanups st)
            e).active = false
          rw [getEff_runCleanups]
          exact h2
        · show countRuns e
            (runCleanups (.cmp cid) (getComp st cid).cleanups st).log
              = countRuns e st.log
          rw [runCleanups_log]
      have h₃ : InactStep e (updComp (runCleanups (.cmp cid) (getComp st cid).cleanups st) cid fun c => { c with cleanups := [], dirty := false }) st₃ := by
        have h := ihFN cid (updComp (runCleanups (.cmp cid) (getComp st cid).cleanups st) cid fun c => { c with cleanups := [], dirty := false }) (by have := hmid.1; omega) hmid.2.1
        rw [hr] at h
        exact h
      refine inactStep_trans (inactStep_trans hmid h₃) ?_
      exact ⟨Nat.le_refl _, h₃.2.1, rfl⟩
    have hNT : ∀ (t : TrackerRef) (st : St V), e < st.effs.length →
        activeOf st e = false →
        InactStep e st (notifyTracker (f + 1) t st) := by
      intro t st h1 h2
      cases t with
      | cmp i => exact ihCN i st h1 h2
      | eff i => exact ihEN i st h1 h2
    have hCN : ∀ (cid : Nat) (st : St V), e < st.effs.length →
        activeOf st e = false →
        InactStep e st (computedNotify (f + 1) cid st) := by
      intro cid st h1 h2
      have hdirty : InactStep e st
          (updComp st cid fun c => { c with dirty := true }) :=
        ⟨Nat.le_refl _, h2, rfl⟩
      simp only [computedNotify]
      split
      · have hev := ihEV cid (updComp st cid fun c => { c with dirty := true })
          h1 h2
        split
        · exact inactStep_trans hdirty hev
        · refine inactStep_trans hdirty (inactStep_trans hev ?_)
          have hfold : ∀ (ts : List TrackerRef) (st₀ : St V),
              e < st₀.effs.length → activeOf st₀ e = false →
              InactStep e st₀
                (ts.foldl (fun s t => notifyTracker f t s) st₀) := by
            intro ts
            induction ts with
            | nil => intro st₀ _ g2; exact ⟨Nat.le_refl _, g2, rfl⟩
            | cons t ts ihts =>
              intro st₀ g1 g2
              rw [List.foldl_cons]
              have hstep := ihNT t st₀ g1 g2
              exact inactStep_trans hstep
                (ihts _ (by have := hstep.1; omega) hstep.2.1)
          exact hfold _ _ (by have h₃ := hdirty.1; have h₄ := hev.1; omega)
            hev.2.1
      · exact hdirty
    have hFN : ∀ (cid : Nat) (st : St V), e < st.effs.length →
        activeOf st e = false →
        InactStep e st ((runComputedFn (f + 1) cid st).1) := by
      intro cid st h1 h2
      simp only [runComputedFn, runWithTracker]
      rcases hr : evalExpr f (getComp { st with trackerStack := .cmp cid :: st.trackerStack } cid).fn
        (logEv { st with trackerStack := .cmp cid :: st.trackerStack } (.evalC cid)) with ⟨st₂, v⟩
      have h₂ : InactStep e (logEv { st with trackerStack := .cmp cid :: st.trackerStack } (.evalC cid)) st₂ := by
        have h := ihEX (getComp { st with trackerStack := .cmp cid :: st.trackerStack } cid).fn
          (logEv { st with trackerStack := .cmp cid :: st.trackerStack } (.evalC cid)) h1 h2
        rw [hr] at h
        exact h
      refine ⟨?_, ?_, ?_⟩
      · exact h₂.1
      · exact h₂.2.1
      · show countRuns e st₂.log = countRuns e st.log
        rw [h₂.2.2]
        show countRuns e (st.log ++ [.evalC cid]) = countRuns e st.log
        rw [countRuns_append, countRuns_evalC]
        rfl
    have hEX : ∀ (ex : Expr V) (st : St V), e < st.effs.length →
        activeOf st e = false →
        InactStep e st ((evalExpr (f + 1) ex st).1) := by
      intro ex st h1 h2
      cases ex with
      | lit v => exact ⟨Nat.le_refl _, h2, rfl⟩
      | readS i =>
        obtain ⟨ha, hb, hc⟩ := registerDep_inact (.sig i) st e
        refine ⟨le_of_eq ha.symm, hb.trans h2, ?_⟩
        show countRuns e (registerDep (.sig i) st).log = countRuns e st.log
        rw [hc]
      | readC i => exact ihCG i st h1 h2
      | app g ex =>
        simp only [evalExpr]
        rcases hr : evalExpr f ex st with ⟨st₁, v⟩
        have h₁ : InactStep e st st₁ := by
          have h := ihEX ex st h1 h2
          rw [hr] at h
          exact h
        exact h₁
      | app2 g ex₁ ex₂ =>
        simp only [evalExpr]
        rcases hr₁ : evalExpr f ex₁ st with ⟨st₁, v₁⟩
        have h₁ : InactStep e st st₁ := by
          have h := ihEX ex₁ st h1 h2
          rw [hr₁] at h
          exact h
        rcases hr₂ : evalExpr f ex₂ st₁ with ⟨st₂, v₂⟩
        have h₂ : InactStep e st₁ st₂ := by
          have h := ihEX ex₂ st₁ (by have := h₁.1; omega) h₁.2.1
          rw [hr₂] at h
          exact h
        exact inactStep_trans h₁ h₂
    have hCG : ∀ (cid : Nat) (st : St V), e < st.effs.length →
        activeOf st e = false →
        InactStep e st ((computedGet (f + 1) cid st).1) := by
      intro cid st h1 h2
      simp only [computedGet]
      have hreg : ∀ st₀ : St V, activeOf st₀ e = false →
          InactStep e st₀ (registerDep (.cmp cid) st₀) := by
        intro st₀ g2
        obtain ⟨ha, hb, hc⟩ := registerDep_inact (.cmp cid) st₀ e
        refine ⟨le_of_eq ha.symm, hb.trans g2, ?_⟩
        show countRuns e (registerDep (.cmp cid) st₀).log
          = countRuns e st₀.log
        rw [hc]
      split
      · have hev := ihEV cid st h1 h2
        split
        · exact inactStep_trans hev (hreg _ hev.2.1)
        · refine inactStep_trans hev
            (inactStep_trans (hpn _ _ _ _ hev.2.1) (hreg _ ?_))
          rw [activeOf_pubNotify]
          exact hev.2.1
      · exact hreg st h2
    have hRB : ∀ (eid : Nat) (st : St V), eid ≠ e → e < st.effs.length →
        activeOf st e = false →
        InactStep e st (runEffectBody (f + 1) eid st) := by
      intro eid st hne h1 h2
      simp only [runEffectBody, runWithTracker]
      rcases hr : runActs f (getEff { st with trackerStack := .eff eid :: st.trackerStack } eid).body { st with trackerStack := .eff eid :: st.trackerStack }
        with ⟨s₁, vals⟩
      have h₁ : InactStep e { st with trackerStack := .eff eid :: st.trackerStack } s₁ := by
        have h := ihRA (getEff { st with trackerStack := .eff eid :: st.trackerStack } eid).body { st with trackerStack := .eff eid :: st.trackerStack } h1 h2
        rw [hr] at h
        exact h
      refine ⟨?_, ?_, ?_⟩
      · exact h₁.1
      · exact h₁.2.1
      · show countRuns e (s₁.log ++ [.effRun eid vals]) = countRuns e st.log
        rw [countRuns_append, countRuns_effRun_ne e eid vals hne, h₁.2.2]
        rfl
    have hEN : ∀ (eid : Nat) (st : St V), e < st.effs.length →
        activeOf st e = false →
        InactStep e st (effectNotify (f + 1) eid st) := by
      intro eid st h1 h2
      simp only [effectNotify]
      split
      · rename_i hact
        have hne : eid ≠ e := by
          intro h
          subst h
          have hf : (getEff st eid).active = false := h2
          rw [hf] at hact
          cases hact
        have hfold : ∀ (cs : List Nat) (st₀ : St V),
            activeOf st₀ e = false →
            InactStep e st₀
              (cs.foldl (fun s ch => effectDispose f ch s) st₀) := by
          intro cs
          induction cs with
          | nil => intro st₀ g2; exact ⟨Nat.le_refl _, g2, rfl⟩
          | cons c cs ihcs =>
            intro st₀ g2
            rw [List.foldl_cons]
            have hstep := hED f c st₀ g2
            exact inactStep_trans hstep (ihcs _ hstep.2.1)
        have hfA := hfold (getEff st eid).children st h2
        have hkids : InactStep e ((getEff st eid).children.foldl
            (fun s ch => effectDispose f ch s) st)
            (updEff ((getEff st eid).children.foldl
              (fun s ch => effectDispose f ch s) st) eid
              fun d => { d with children := [] }) := by
          refine ⟨le_of_eq (by simp [updEff]), ?_, rfl⟩
          rw [activeOf_updEff_kids]
          exact hfA.2.1
        have hclean : ∀ st₀ : St V, activeOf st₀ e = false →
            InactStep e st₀ (runCleanups (.eff eid)
              (getEff st₀ eid).cleanups st₀) := by
          intro st₀ g2
          refine ⟨le_of_eq (by rw [runCleanups_effs]), ?_, ?_⟩
          · show (getEff (runCleanups (.eff eid)
              (getEff st₀ eid).cleanups st₀) e).active = false
            rw [getEff_runCleanups]
            exact g2
          · rw [runCleanups_log]
        have hclr : ∀ st₀ : St V, activeOf st₀ e = false →
            InactStep e st₀ (updEff st₀ eid
              fun d => { d with cleanups := [] }) := by
          intro st₀ g2
          refine ⟨le_of_eq (by simp [updEff]), ?_, rfl⟩
          rw [activeOf_updEff_clr]
          exact g2
        have h₄ := inactStep_trans (inactStep_trans hfA hkids)
          (inactStep_trans
            (hclean _ hkids.2.1)
            (hclr _ (by
              show (getEff (runCleanups (.eff eid) _ _) e).active = false
              rw [getEff_runCleanups]
              exact hkids.2.1)))
        exact inactStep_trans h₄
          (ihRB eid _ hne (by have := h₄.1; omega) h₄.2.1)
      · exact ⟨Nat.le_refl _, h2, rfl⟩
    have hEF : ∀ (body : List Act) (st : St V), e < st.effs.length →
        activeOf st e = false →
        InactStep e st ((effect (f + 1) body st).1) := by
      intro body st h1 h2
      simp only [effect]
      have hne : st.effs.length ≠ e := by omega
      have happ : InactStep e st { st with effs := st.effs ++ [{ active := true, cleanups := [], children := [], body := body }] } := by
        refine ⟨?_, ?_, rfl⟩
        · show st.effs.length ≤ (st.effs ++ [(⟨true, [], [], body⟩ : EffectData)]).length
          rw [List.length_append]
          omega
        · show (getEff { st with effs := st.effs ++ [{ active := true, cleanups := [], children := [], body := body }] } e).active = false
          rw [getEff_append_lt st _ e h1]
          exact h2
      have hrb := ihRB st.effs.length { st with effs := st.effs ++ [{ active := true, cleanups := [], children := [], body := body }] } hne
        (by simpa using Nat.lt_succ_of_lt h1) happ.2.1
      have h₂ := inactStep_trans happ hrb
      revert h₂
      generalize runEffectBody f st.effs.length { st with effs := st.effs ++ [{ active := true, cleanups := [], children := [], body := body }] } = stR
      intro h₂
      rcases hc : getCurrentTracker stR with _ | t
      · exact h₂
      · rcases t with i | i
        · exact h₂
        · have h₃ : InactStep e stR (updEff stR i (fun d => { d with children := insertAbsent d.children st.effs.length })) := by
            refine ⟨le_of_eq (by simp [updEff]), ?_, rfl⟩
            rw [activeOf_updEff_pres stR i (fun d => { d with children := insertAbsent d.children st.effs.length }) (fun _ => rfl) e]
            exact h₂.2.1
          exact inactStep_trans h₂ h₃
    have hRA : ∀ (acts : List Act) (st : St V), e < st.effs.length →
        activeOf st e = false →
        InactStep e st ((runActs (f + 1) acts st).1) := by
      intro acts st h1 h2
      match acts with
      | [] => exact ⟨Nat.le_refl _, h2, rfl⟩
      | .read (.sig i) :: rest =>
        simp only [runActs, signalGet]
        rcases hr : runActs f rest (registerDep (.sig i) st) with ⟨st₂, vs⟩
        obtain ⟨ha, hb, hc⟩ := registerDep_inact (.sig i) st e
        have hreg : InactStep e st (registerDep (.sig i) st) := by
          refine ⟨le_of_eq ha.symm, hb.trans h2, ?_⟩
          rw [hc]
        have h₂ : InactStep e (registerDep (.sig i) st) st₂ := by
          have h := ihRA rest (registerDep (.sig i) st)
            (by have := hreg.1; omega) hreg.2.1
          rw [hr] at h
          exact h
        exact inactStep_trans hreg h₂
      | .read (.cmp i) :: rest =>
        simp only [runActs]
        rcases hg : computedGet f i st with ⟨st₁, v⟩
        have h₁ : InactStep e st st₁ := by
          have h := ihCG i st h1 h2
          rw [hg] at h
          exact h
        rcases hr : runActs f rest st₁ with ⟨st₂, vs⟩
        have h₂ : InactStep e st₁ st₂ := by
          have h := ihRA rest st₁ (by have := h₁.1; omega) h₁.2.1
          rw [hr] at h
          exact h
        exact inactStep_trans h₁ h₂
      | .mk body :: rest =>
        simp only [runActs]
        rcases hg : effect f body st with ⟨st₁, eid⟩
        have h₁ : InactStep e st st₁ := by
          have h := ihEF body st h1 h2
          rw [hg] at h
          exact h
        have h₂ := ihRA rest st₁ (by have := h₁.1; omega) h₁.2.1
        exact inactStep_trans h₁ h₂
    exact ⟨hNT, hCN, hEV, hFN, hEX, hCG, hEN, hRB, hRA, hEF⟩

theorem inact_pubNotify (e : Nat) (subs : List Nat) (nv : V) (ov : Option V)
    (st₀ : St V) (g2 : activeOf st₀ e = false) :
    InactStep e st₀ (pubNotify subs nv ov st₀) := by
  refine ⟨le_of_eq ?_, ?_, ?_⟩
  · rw [pubNotify_effs]
  · rw [activeOf_pubNotify]
    exact g2
  · exact countRuns_pubNotify e subs nv ov st₀

theorem inact_flushPublicSubs (e sid : Nat) (st : St V)
    (h2 : activeOf st e = false) :
    InactStep e st (flushPublicSubs sid st) := by
  rw [flushPublicSubs]
  cases hpb : (getSig st sid).preBatch with
  | none => exact inact_pubNotify e _ _ _ _ h2
  | some pb =>
    show InactStep e st
      (if (getSig st sid).equals (getSig st sid).value pb = true
        then (updSig st sid fun d => { d with preBatch := none })
        else pubNotify (getSig st sid).publicSubs (getSig st sid).value
          (some pb) (updSig st sid fun d => { d with preBatch := none }))
    by_cases heq : (getSig st sid).equals (getSig st sid).value pb = true
    · rw [if_pos heq]
      exact ⟨Nat.le_refl _, h2, rfl⟩
    · rw [if_neg heq]
      have hupd : InactStep e st
          (updSig st sid fun d => { d with preBatch := none }) :=
        ⟨Nat.le_refl _, h2, rfl⟩
      exact inactStep_trans hupd (inact_pubNotify e _ _ _ _ hupd.2.1)

theorem inact_runThunk (f e : Nat) (th : NThunk) (st : St V)
    (h1 : e < st.effs.length) (h2 : activeOf st e = false) :
    InactStep e st (runThunk f th st) := by
  cases th with
  | flushPub sid => exact inact_flushPublicSubs e sid st h2
  | notify t => exact (inact_pres f e).1 t st h1 h2

theorem inact_drain (f e : Nat) : ∀ st : St V, e < st.effs.length →
    activeOf st e = false → InactStep e st (drain f st) := by
  induction f with
  | zero => intro st _ h2; exact ⟨Nat.le_refl _, h2, rfl⟩
  | succ f ihf =>
    intro st h1 h2
    rw [drain]
    split
    · exact ⟨Nat.le_refl _, h2, rfl⟩
    · have hfold : ∀ (ths : List NThunk) (st₀ : St V), e < st₀.effs.length →
          activeOf st₀ e = false →
          InactStep e st₀ (ths.foldl (fun s th => runThunk f th s) st₀) := by
        intro ths
        induction ths with
        | nil => intro st₀ _ g2; exact ⟨Nat.le_refl _, g2, rfl⟩
        | cons th ths ihts =>
          intro st₀ g1 g2
          rw [List.foldl_cons]
          have hstep := inact_runThunk f e th st₀ g1 g2
          exact inactStep_trans hstep
            (ihts _ (by have := hstep.1; omega) hstep.2.1)
      have hf := hfold st.pending { st with pending := [] } h1 h2
      exact inactStep_trans hf (ihf _ (Nat.lt_of_lt_of_le h1 hf.1) hf.2.1)

theorem inact_batch {ε α : Type} (f e : Nat) (fn : St V → St V × Except ε α)
    (st : St V) (h1 : e < st.effs.length) (h2 : activeOf st e = false)
    (hfn : ∀ s : St V, e < s.effs.length → activeOf s e = false →
        InactStep e s (fn s).1) :
    InactStep e st ((batch f fn st).1) := by
  simp only [batch]
  rcases hr : fn { st with batchDepth := st.batchDepth + 1 } with ⟨st₂, r⟩
  have h₁ : InactStep e { st with batchDepth := st.batchDepth + 1 } st₂ := by
    have h := hfn { st with batchDepth := st.batchDepth + 1 } h1 h2
    rw [hr] at h
    exact h
  split
  · exact inactStep_trans h₁ (inact_drain f e st₂
      (Nat.lt_of_lt_of_le h1 h₁.1) h₁.2.1)
  · exact h₁

theorem foldl_pending_insert (ts : List TrackerRef) :
    ∀ s₀ : St V,
      ts.foldl (fun s t =>
          { s with pending := insertAbsent s.pending (.notify t) }) s₀
        = { s₀ with pending := ts.foldl (fun p t => insertAbsent p (.notify t)) s₀.pending } := by
  induction ts with
  | nil => intro s₀; rfl
  | cons t ts ihts =>
    intro s₀
    rw [List.foldl_cons, List.foldl_cons, ihts]

theorem inact_signalSet (f e sid : Nat) (v : V) (st : St V)
    (h1 : e < st.effs.length) (h2 : activeOf st e = false) :
    InactStep e st (signalSet f sid v st) := by
  simp only [signalSet]
  split
  · exact ⟨Nat.le_refl _, h2, rfl⟩
  · split
    · rw [foldl_pending_insert]
      split <;> exact ⟨Nat.le_refl _, h2, rfl⟩
    · have hupd : InactStep e st
          (updSig st sid fun d => { d with value := v }) :=
        ⟨Nat.le_refl _, h2, rfl⟩
      refine inactStep_trans hupd (inact_batch f e _ _ h1 h2 ?_)
      intro s hs1 hs2
      have hfold : ∀ (ts : List TrackerRef) (s₀ : St V), e < s₀.effs.length →
          activeOf s₀ e = false →
          InactStep e s₀ (ts.foldl (fun acc t => notifyTracker f t acc) s₀) := by
        intro ts
        induction ts with
        | nil => intro s₀ _ g2; exact ⟨Nat.le_refl _, g2, rfl⟩
        | cons t ts ihts =>
          intro s₀ g1 g2
          rw [List.foldl_cons]
          have hstep := (inact_pres f e).1 t s₀ g1 g2
          exact inactStep_trans hstep
            (ihts _ (by have := hstep.1; omega) hstep.2.1)
      have hf := hfold (getSig s sid).internalSubs s hs1 hs2
      exact inactStep_trans hf (inact_pubNotify e _ _ _ _ hf.2.1)

theorem inact_applyOp (f e : Nat) (op : Op V) (st : St V)
    (h1 : e < st.effs.length) (h2 : activeOf st e = false) :
    InactStep e st (applyOp f st op) := by
  cases op with
  | write sid v => exact inact_signalSet f e sid v st h1 h2
  | disposeE d =>
    exact ⟨le_of_eq (dispose_len f d st).symm,
      dispose_inactive f d st e h2,
      by show countRuns e (effectDispose f d st).log = countRuns e st.log
         rw [dispose_log]⟩

theorem inact_applyOps (f e : Nat) (ops : List (Op V)) :
    ∀ st : St V, e < st.effs.length → activeOf st e = false →
      InactStep e st (applyOps f ops st) := by
  induction ops with
  | nil => intro st _ h2; exact ⟨Nat.le_refl _, h2, rfl⟩
  | cons op ops ihop =>
    intro st h1 h2
    rw [applyOps, List.foldl_cons]
    have hstep := inact_applyOp f e op st h1 h2
    have h₂ := ihop (applyOp f st op) (by have := hstep.1; omega) hstep.2.1
    rw [applyOps] at h₂
    exact inactStep_trans hstep h₂

theorem subsShrink_refl (st : St V) : SubsShrink st st := fun _ _ h => h

theorem subsShrink_trans {s₁ s₂ s₃ : St V} (h₁ : SubsShrink s₁ s₂)
    (h₂ : SubsShrink s₂ s₃) : SubsShrink s₁ s₃ :=
  fun c t h => h₁ c t (h₂ c t h)

theorem released_mono {t : TrackerRef} {s₁ s₂ : St V}
    (hs : SubsShrink s₁ s₂) (h : Released t s₁) : Released t s₂ :=
  fun c hm => h c (hs c t hm)

theorem reachRel_trans {s₁ s₂ s₃ : St V} (h₁ : ReachRel s₁ s₂)
    (h₂ : ReachRel s₂ s₃) (hs : SubsShrink s₂ s₃) : ReachRel s₁ s₃ := by
  intro y d hr
  rcases h₁ y d hr with hr₂ | hrel
  · exact h₂ y d hr₂
  · exact Or.inr (released_mono hs hrel)

theorem cellSubs_removeReg (c c' : CellRef) (t : TrackerRef) (st : St V) :
    cellSubs (removeReg c t st) c' = cellSubs st c'
      ∨ (c' = c ∧ cellSubs (removeReg c t st) c'
          = (cellSubs st c').erase t) := by
  cases c with
  | sig i =>
    cases c' with
    | sig j =>
      by_cases hij : j = i
      · subst hij
        by_cases hr : j < st.sigs.length
        · right
          refine ⟨rfl, ?_⟩
          show (getSig (updSig st j (fun s => { s with internalSubs := s.internalSubs.erase t, trackersR := s.trackersR.erase t })) j).internalSubs
            = (getSig st j).internalSubs.erase t
          rw [getSig_updSig_self st j (fun s => { s with internalSubs := s.internalSubs.erase t, trackersR := s.trackersR.erase t }) hr]
        · left
          show (getSig (updSig st j (fun s => { s with internalSubs := s.internalSubs.erase t, trackersR := s.trackersR.erase t })) j).internalSubs
            = (getSig st j).internalSubs
          rw [updSig_oor st j (fun s => { s with internalSubs := s.internalSubs.erase t, trackersR := s.trackersR.erase t }) hr]
      · left
        show (getSig (updSig st i (fun s => { s with internalSubs := s.internalSubs.erase t, trackersR := s.trackersR.erase t })) j).internalSubs
          = (getSig st j).internalSubs
        rw [getSig_updSig_ne st j i (fun s => { s with internalSubs := s.internalSubs.erase t, trackersR := s.trackersR.erase t }) hij]
    | cmp j => exact Or.inl rfl
  | cmp i =>
    cases c' with
    | sig j => exact Or.inl rfl
    | cmp j =>
      by_cases hij : j = i
      · subst hij
        by_cases hr : j < st.comps.length
        · right
          refine ⟨rfl, ?_⟩
          show (getComp (updComp st j (fun s => { s with internalSubs := s.internalSubs.erase t, trackersR := s.trackersR.erase t })) j).internalSubs
            = (getComp st j).internalSubs.erase t
          rw [getComp_updComp_self st j (fun s => { s with internalSubs := s.internalSubs.erase t, trackersR := s.trackersR.erase t }) hr]
        · left
          show (getComp (updComp st j (fun s => { s with internalSubs := s.internalSubs.erase t, trackersR := s.trackersR.erase t })) j).internalSubs
            = (getComp st j).internalSubs
          rw [updComp_oor st j (fun s => { s with internalSubs := s.internalSubs.erase t, trackersR := s.trackersR.erase t }) hr]
      · left
        show (getComp (updComp st i (fun s => { s with internalSubs := s.internalSubs.erase t, trackersR := s.trackersR.erase t })) j).internalSubs
          = (getComp st j).internalSubs
        rw [getComp_updComp_ne st j i (fun s => { s with internalSubs := s.internalSubs.erase t, trackersR := s.trackersR.erase t }) hij]

theorem subsShrink_removeReg (c : CellRef) (t' : TrackerRef) (st : St V) :
    SubsShrink st (removeReg c t' st) := by
  intro c' t h
  rcases cellSubs_removeReg c c' t' st with he | ⟨_, he⟩
  · rwa [he] at h
  · rw [he] at h
    exact List.mem_of_mem_erase h

theorem nodupSubs_removeReg (c : CellRef) (t : TrackerRef) (st : St V)
    (h : NodupSubs st) : NodupSubs (removeReg c t st) := by
  intro c'
  rcases cellSubs_removeReg c c' t st with he | ⟨_, he⟩
  · rw [he]
    exact h c'
  · rw [he]
    exact (h c').erase t

theorem covEff_removeReg (c : CellRef) (t : TrackerRef) (st : St V)
    (h : CovEff st) : CovEff (removeReg c t st) := by
  intro d c' hm
  rw [getEff_removeReg]
  exact h d c' (subsShrink_removeReg c t st c' _ hm)

theorem removeReg_releases (c : CellRef) (t : TrackerRef) (st : St V)
    (hn : (cellSubs st c).Nodup) : t ∉ cellSubs (removeReg c t st) c := by
  cases c with
  | sig i =>
    by_cases hr : i < st.sigs.length
    · show t ∉ (getSig (updSig st i (fun s => { s with internalSubs := s.internalSubs.erase t, trackersR := s.trackersR.erase t })) i).internalSubs
      rw [getSig_updSig_self st i (fun s => { s with internalSubs := s.internalSubs.erase t, trackersR := s.trackersR.erase t }) hr]
      exact hn.not_mem_erase
    · show t ∉ (getSig (updSig st i (fun s => { s with internalSubs := s.internalSubs.erase t, trackersR := s.trackersR.erase t })) i).internalSubs
      rw [updSig_oor st i (fun s => { s with internalSubs := s.internalSubs.erase t, trackersR := s.trackersR.erase t }) hr, getSig_oor st i hr]
      simp [dfltSig]
  | cmp i =>
    by_cases hr : i < st.comps.length
    · show t ∉ (getComp (updComp st i (fun s => { s with internalSubs := s.internalSubs.erase t, trackersR := s.trackersR.erase t })) i).internalSubs
      rw [getComp_updComp_self st i (fun s => { s with internalSubs := s.internalSubs.erase t, trackersR := s.trackersR.erase t }) hr]
      exact hn.not_mem_erase
    · show t ∉ (getComp (updComp st i (fun s => { s with internalSubs := s.internalSubs.erase t, trackersR := s.trackersR.erase t })) i).internalSubs
      rw [updComp_oor st i (fun s => { s with internalSubs := s.internalSubs.erase t, trackersR := s.trackersR.erase t }) hr, getComp_oor st i hr]
      simp [dfltComp]

theorem subsShrink_runCleanups (t : TrackerRef) (cls : List CellRef) :
    ∀ st : St V, SubsShrink st (runCleanups t cls st) := by
  induction cls with
  | nil => intro st; exact subsShrink_refl st
  | cons c cls ihc =>
    intro st
    rw [runCleanups, List.foldl_cons,
      show List.foldl (fun s c => removeReg c t s) (removeReg c t st) cls
        = runCleanups t cls (removeReg c t st) from rfl]
    exact subsShrink_trans (subsShrink_removeReg c t st) (ihc _)

theorem nodupSubs_runCleanups (t : TrackerRef) (cls : List CellRef) :
    ∀ st : St V, NodupSubs st → NodupSubs (runCleanups t cls st) := by
  induction cls with
  | nil => intro st h; exact h
  | cons c cls ihc =>
    intro st h
    rw [runCleanups, List.foldl_cons,
      show List.foldl (fun s c => removeReg c t s) (removeReg c t st) cls
        = runCleanups t cls (removeReg c t st) from rfl]
    exact ihc _ (nodupSubs_removeReg c t st h)

theorem covEff_runCleanups (t : TrackerRef) (cls : List CellRef) :
    ∀ st : St V, CovEff st → CovEff (runCleanups t cls st) := by
  induction cls with
  | nil => intro st h; exact h
  | cons c cls ihc =>
    intro st h
    rw [runCleanups, List.foldl_cons,
      show List.foldl (fun s c => removeReg c t s) (removeReg c t st) cls
        = runCleanups t cls (removeReg c t st) from rfl]
    exact ihc _ (covEff_removeReg c t st h)

/-- Running a tracker's cleanups releases every one of its registrations,
provided the cleanup list covers them and the subscriber sets are
duplicate-free. -/
theorem runCleanups_release (t : TrackerRef) :
    ∀ (cls : List CellRef) (st : St V),
      (∀ c, t ∈ cellSubs st c → c ∈ cls) → NodupSubs st →
      Released t (runCleanups t cls st) := by
  intro cls
  induction cls with
  | nil =>
    intro st hcov _ c hm
    exact absurd (hcov c hm) (List.not_mem_nil c)
  | cons c₀ cls ihc =>
    intro st hcov hnd
    rw [runCleanups, List.foldl_cons,
      show List.foldl (fun s c => removeReg c t s) (removeReg c₀ t st) cls
        = runCleanups t cls (removeReg c₀ t st) from rfl]
    apply ihc
    · intro c hm
      have hin : t ∈ cellSubs st c := subsShrink_removeReg c₀ t st c t hm
      rcases List.mem_cons.mp (hcov c hin) with rfl | h
      · exact absurd hm (removeReg_releases c t st (hnd c))
      · exact h
    · exact nodupSubs_removeReg c₀ t st hnd

theorem subsShrink_updEff (st : St V) (j : Nat)
    (g : EffectData → EffectData) : SubsShrink st (updEff st j g) := by
  intro c t h
  cases c <;> exact h

theorem nodupSubs_updEff (st : St V) (j : Nat)
    (g : EffectData → EffectData) (h : NodupSubs st) :
    NodupSubs (updEff st j g) := by
  intro c
  cases c with
  | sig i => exact h (.sig i)
  | cmp i => exact h (.cmp i)

theorem covEff_updEff_keep (st : St V) (j : Nat)
    (g : EffectData → EffectData) (hg : ∀ d, (g d).cleanups = d.cleanups)
    (h : CovEff st) : CovEff (updEff st j g) := by
  intro d c hm
  have hm' : (.eff d) ∈ cellSubs st c := by cases c <;> exact hm
  rcases getEff_updEff_cases st d j g with he | ⟨_, he⟩
  · rw [he]
    exact h d c hm'
  · rw [he, hg]
    exact h d c hm'

theorem covEff_updEff_clrCln (st : St V) (j : Nat)
    (hrel : Released (.eff j) st) (h : CovEff st) :
    CovEff (updEff st j fun d => { d with cleanups := [] }) := by
  intro d c hm
  have hm' : (.eff d) ∈ cellSubs st c := by cases c <;> exact hm
  by_cases hdj : d = j
  · subst hdj
    exact absurd hm' (hrel c)
  · rcases getEff_updEff_cases st d j
        (fun d => { d with cleanups := [] }) with he | ⟨heq, _⟩
    · rw [he]
      exact h d c hm'
    · exact absurd heq hdj

/-- Disposal with enough fuel: registrations only shrink, the coverage and
nodup invariants survive, every ownership path survives or ends released,
and everything reachable from the disposed reaction has all of its
dependency registrations released. -/
theorem dispose_release (f : Nat) : ∀ (st : St V) (x : Nat) (H : Nat → Nat),
    EdgesLt H st → H x < f → CovEff st → NodupSubs st →
    SubsShrink st (effectDispose f x st)
      ∧ CovEff (effectDispose f x st)
      ∧ NodupSubs (effectDispose f x st)
      ∧ ReachRel st (effectDispose f x st)
      ∧ (∀ d, Reaches st x d →
          Released (.eff d) (effectDispose f x st)) := by
  induction f with
  | zero => intro st x H _ hx; exact absurd hx (by omega)
  | succ f ih =>
    intro st x H hE hx hcov hnd
    have hb : ∀ c ∈ (getEff st x).children, H c < f := by
      intro c hc
      have h₁ := hE x c hc
      omega
    have hfold : ∀ (cs' : List Nat) (st₀ : St V), EdgesLt H st₀ →
        (∀ c ∈ cs', H c < f) → CovEff st₀ → NodupSubs st₀ →
        SubsShrink st₀ (cs'.foldl (fun s ch => effectDispose f ch s) st₀)
          ∧ CovEff (cs'.foldl (fun s ch => effectDispose f ch s) st₀)
          ∧ NodupSubs (cs'.foldl (fun s ch => effectDispose f ch s) st₀)
          ∧ ReachRel st₀ (cs'.foldl (fun s ch => effectDispose f ch s) st₀)
          ∧ (∀ c ∈ cs', ∀ d, Reaches st₀ c d →
              Released (.eff d)
                (cs'.foldl (fun s ch => effectDispose f ch s) st₀)) := by
      intro cs'
      induction cs' with
      | nil =>
        intro st₀ _ _ hcov₀ hnd₀
        exact ⟨subsShrink_refl st₀, hcov₀, hnd₀,
          fun y d hr => Or.inl hr, by simp⟩
      | cons c cs' ihc =>
        intro st₀ hE₀ hbnd hcov₀ hnd₀
        rw [List.foldl_cons]
        have hc₁ := ih st₀ c H hE₀ (hbnd c (by simp)) hcov₀ hnd₀
        have hsh₁ : Shrinks st₀ (effectDispose f c st₀) :=
          dispose_shrinks f c st₀
        have hrec := ihc (effectDispose f c st₀)
          (edgesLt_of_shrinks hE₀ hsh₁)
          (fun c' h' => hbnd c' (by simp [h']))
          hc₁.2.1 hc₁.2.2.1
        refine ⟨subsShrink_trans hc₁.1 hrec.1, hrec.2.1, hrec.2.2.1,
          reachRel_trans hc₁.2.2.2.1 hrec.2.2.2.1 hrec.1, ?_⟩
        intro c₀ hc₀ d hr
        rcases List.mem_cons.mp hc₀ with rfl | hmem
        · exact released_mono hrec.1 (hc₁.2.2.2.2 d hr)
        · rcases hc₁.2.2.2.1 c₀ d hr with hr₁ | hrel
          · exact hrec.2.2.2.2 c₀ hmem d hr₁
          · exact released_mono hrec.1 hrel
    have hA := hfold (getEff st x).children st hE hb hcov hnd
    have hshA : Shrinks st ((getEff st x).children.foldl
        (fun s ch => effectDispose f ch s) st) :=
      foldl_dispose_shrinks f _ st
    set stA := (getEff st x).children.foldl
      (fun s ch => effectDispose f ch s) st with hstA
    have hT : effectDispose (f + 1) x st = (updEff (updEff (runCleanups (.eff x) (getEff (updEff stA x fun d => { d with children := [] }) x).cleanups (updEff stA x fun d => { d with children := [] })) x fun d => { d with cleanups := [] }) x (fun d => { d with active := false })) := rfl
    have cov₂ : CovEff (updEff stA x fun d => { d with children := [] }) :=
      covEff_updEff_keep stA x (fun d => { d with children := [] })
        (fun d => rfl) hA.2.1
    have nd₂ : NodupSubs (updEff stA x fun d => { d with children := [] }) :=
      nodupSubs_updEff stA x (fun d => { d with children := [] }) hA.2.2.1
    have rel₃ : Released (.eff x) (runCleanups (.eff x) (getEff (updEff stA x fun d => { d with children := [] }) x).cleanups (updEff stA x fun d => { d with children := [] })) :=
      runCleanups_release (.eff x) (getEff (updEff stA x fun d => { d with children := [] }) x).cleanups (updEff stA x fun d => { d with children := [] })
        (fun c hm => cov₂ x c hm) nd₂
    have cov₃ : CovEff (runCleanups (.eff x) (getEff (updEff stA x fun d => { d with children := [] }) x).cleanups (updEff stA x fun d => { d with children := [] })) :=
      covEff_runCleanups (.eff x) (getEff (updEff stA x fun d => { d with children := [] }) x).cleanups (updEff stA x fun d => { d with children := [] }) cov₂
    have nd₃ : NodupSubs (runCleanups (.eff x) (getEff (updEff stA x fun d => { d with children := [] }) x).cleanups (updEff stA x fun d => { d with children := [] })) :=
      nodupSubs_runCleanups (.eff x) (getEff (updEff stA x fun d => { d with children := [] }) x).cleanups (updEff stA x fun d => { d with children := [] }) nd₂
    have cov₄ : CovEff (updEff (runCleanups (.eff x) (getEff (updEff stA x fun d => { d with children := [] }) x).cleanups (updEff stA x fun d => { d with children := [] })) x fun d => { d with cleanups := [] }) := covEff_updEff_clrCln (runCleanups (.eff x) (getEff (updEff stA x fun d => { d with children := [] }) x).cleanups (updEff stA x fun d => { d with children := [] })) x rel₃ cov₃
    have nd₄ : NodupSubs (updEff (runCleanups (.eff x) (getEff (updEff stA x fun d => { d with children := [] }) x).cleanups (updEff stA x fun d => { d with children := [] })) x fun d => { d with cleanups := [] }) :=
      nodupSubs_updEff (runCleanups (.eff x) (getEff (updEff stA x fun d => { d with children := [] }) x).cleanups (updEff stA x fun d => { d with children := [] })) x (fun d => { d with cleanups := [] }) nd₃
    have rel₄ : Released (.eff x) (updEff (runCleanups (.eff x) (getEff (updEff stA x fun d => { d with children := [] }) x).cleanups (updEff stA x fun d => { d with children := [] })) x fun d => { d with cleanups := [] }) :=
      released_mono
        (subsShrink_updEff (runCleanups (.eff x) (getEff (updEff stA x fun d => { d with children := [] }) x).cleanups (updEff stA x fun d => { d with children := [] })) x (fun d => { d with cleanups := [] })) rel₃
    have cov₅ : CovEff (updEff (updEff (runCleanups (.eff x) (getEff (updEff stA x fun d => { d with children := [] }) x).cleanups (updEff stA x fun d => { d with children := [] })) x fun d => { d with cleanups := [] }) x (fun d => { d with active := false })) :=
      covEff_updEff_keep (updEff (runCleanups (.eff x) (getEff (updEff stA x fun d => { d with children := [] }) x).cleanups (updEff stA x fun d => { d with children := [] })) x fun d => { d with cleanups := [] }) x (fun d => { d with active := false })
        (fun d => rfl) cov₄
    have nd₅ : NodupSubs (updEff (updEff (runCleanups (.eff x) (getEff (updEff stA x fun d => { d with children := [] }) x).cleanups (updEff stA x fun d => { d with children := [] })) x fun d => { d with cleanups := [] }) x (fun d => { d with active := false })) :=
      nodupSubs_updEff (updEff (runCleanups (.eff x) (getEff (updEff stA x fun d => { d with children := [] }) x).cleanups (updEff stA x fun d => { d with children := [] })) x fun d => { d with cleanups := [] }) x (fun d => { d with active := false }) nd₄
    have rel₅ : Released (.eff x) (updEff (updEff (runCleanups (.eff x) (getEff (updEff stA x fun d => { d with children := [] }) x).cleanups (updEff stA x fun d => { d with children := [] })) x fun d => { d with cleanups := [] }) x (fun d => { d with active := false })) :=
      released_mono
        (subsShrink_updEff (updEff (runCleanups (.eff x) (getEff (updEff stA x fun d => { d with children := [] }) x).cleanups (updEff stA x fun d => { d with children := [] })) x fun d => { d with cleanups := [] }) x (fun d => { d with active := false })) rel₄
    have t45 : SubsShrink stA (updEff (updEff (runCleanups (.eff x) (getEff (updEff stA x fun d => { d with children := [] }) x).cleanups (updEff stA x fun d => { d with children := [] })) x fun d => { d with cleanups := [] }) x (fun d => { d with active := false })) :=
      subsShrink_trans
        (subsShrink_updEff stA x (fun d => { d with children := [] }))
        (subsShrink_trans
          (subsShrink_runCleanups (.eff x) (getEff (updEff stA x fun d => { d with children := [] }) x).cleanups (updEff stA x fun d => { d with children := [] }))
          (subsShrink_trans
            (subsShrink_updEff (runCleanups (.eff x) (getEff (updEff stA x fun d => { d with children := [] }) x).cleanups (updEff stA x fun d => { d with children := [] })) x (fun d => { d with cleanups := [] }))
            (subsShrink_updEff (updEff (runCleanups (.eff x) (getEff (updEff stA x fun d => { d with children := [] }) x).cleanups (updEff stA x fun d => { d with children := [] })) x fun d => { d with cleanups := [] }) x (fun d => { d with active := false }))))
    have hrelAll : ∀ d, Reaches st x d → Released (.eff d) (updEff (updEff (runCleanups (.eff x) (getEff (updEff stA x fun d => { d with children := [] }) x).cleanups (updEff stA x fun d => { d with children := [] })) x fun d => { d with cleanups := [] }) x (fun d => { d with active := false })) := by
      intro d hr
      cases hr with
      | refl => exact rel₅
      | step hc hr' => exact released_mono t45 (hA.2.2.2.2 _ hc d hr')
    have hRR : ReachRel st (updEff (updEff (runCleanups (.eff x) (getEff (updEff stA x fun d => { d with children := [] }) x).cleanups (updEff stA x fun d => { d with children := [] })) x fun d => { d with cleanups := [] }) x (fun d => { d with active := false })) := by
      intro y d hr
      rcases hA.2.2.2.1 y d hr with hrA | hrel
      · rcases reach_clear stA x y d hrA with hl | ⟨c, hcmem, hrc⟩
        · left
          refine reach_congr (fun y => ?_) hl
          exact (childrenOf_dispose_tail x stA y).symm
        · right
          have hcs : c ∈ (getEff st x).children := hshA.1 x hcmem
          have hrst : Reaches st c d := reach_mono hshA.1 hrc
          exact released_mono t45 (hA.2.2.2.2 c hcs d hrst)
      · right
        exact released_mono t45 hrel
    rw [hT]
    exact ⟨subsShrink_trans hA.1 t45, cov₅, nd₅, hRR, hrelAll⟩

theorem dispSt_eq : dispSt
    = { sigs := [⟨3, natIs, [.eff 0, .eff 1], [.eff 0, .eff 1], [], none⟩],
        comps := [],
        effs := [⟨true, [.sig 0], [1], [.read (.sig 0), .mk [.read (.sig 0)]]⟩,
          ⟨true, [.sig 0], [], [.read (.sig 0)]⟩],
        trackerStack := [], isTracking := true, batchDepth := 0,
        pending := [], log := [.effRun 1 [3], .effRun 0 [3]] } := by
  simp [dispSt, signal, effect, runEffectBody, runActs, signalGet,
    registerDep, pushCleanup, getSig, getEff, updSig, updEff, logEv,
    getCurrentTracker, runWithTracker, insertAbsent, St.empty, dfltSig,
    dfltEff]

/-- C3: disposal is recursive and terminal.  With fuel above the ownership
heights and the bookkeeping invariants (every registration covered by a
stored cleanup, duplicate-free subscriber sets), `dispose()` on reaction `x`
deactivates `x` and every reaction it transitively created and releases all
of their dependency registrations; and afterwards no sequence of external
operations — writes to any cell or further disposals, with any fuel — ever
re-activates any of them or makes any of their bodies run again. -/
theorem C3_dispose_recursive_terminal (f : Nat) (st : St V) (x : Nat)
    (H : Nat → Nat) (hE : EdgesLt H st) (hx : H x < f)
    (hcov : CovEff st) (hnd : NodupSubs st) :
    (∀ d, Reaches st x d →
        activeOf (effectDispose f x st) d = false
          ∧ Released (.eff d) (effectDispose f x st))
      ∧ (∀ (g : Nat) (ops : List (Op V)) (d : Nat), Reaches st x d →
          d < st.effs.length →
          activeOf (applyOps g ops (effectDispose f x st)) d = false
            ∧ countRuns d (applyOps g ops (effectDispose f x st)).log
                = countRuns d (effectDispose f x st).log) := by
  have hkill := dispose_kill f st x H hE hx
  have hrel := dispose_release f st x H hE hx hcov hnd
  refine ⟨fun d hr => ⟨hkill.2 d hr, hrel.2.2.2.2 d hr⟩, ?_⟩
  intro g ops d hr hd
  have h1 : d < (effectDispose f x st).effs.length := by
    rw [dispose_len]
    exact hd
  have h2 := hkill.2 d hr
  have hstep := inact_applyOps g d ops (effectDispose f x st) h1 h2
  exact ⟨hstep.2.1, hstep.2.2⟩

/-- Witness for C3: in the parent/child scenario `dispSt`, disposing the
parent deactivates and releases both reactions, and a later write to the
signal they read neither re-activates the child nor re-runs it. -/
theorem C3_witness :
    (activeOf (effectDispose 9 0 dispSt) 0 = false
        ∧ Released (.eff 0) (effectDispose 9 0 dispSt))
      ∧ (activeOf (effectDispose 9 0 dispSt) 1 = false
        ∧ Released (.eff 1) (effectDispose 9 0 dispSt))
      ∧ (activeOf (applyOps 9 [.write 0 7] (effectDispose 9 0 dispSt)) 1
            = false
        ∧ countRuns 1 (applyOps 9 [.write 0 7]
              (effectDispose 9 0 dispSt)).log
            = countRuns 1 (effectDispose 9 0 dispSt).log) := by
  have hE : EdgesLt (fun n => 2 - n) dispSt := by
    intro x c hc
    rw [dispSt_eq] at hc
    show 2 - c < 2 - x
    match x with
    | 0 =>
      simp [childrenOf, getEff, List.getD, dfltEff] at hc
      omega
    | 1 => simp [childrenOf, getEff, List.getD, dfltEff] at hc
    | n + 2 => simp [childrenOf, getEff, List.getD, dfltEff] at hc
  have hcov : CovEff dispSt := by
    intro d c hm
    rw [dispSt_eq] at hm ⊢
    cases c with
    | sig i =>
      match i with
      | 0 =>
        simp [cellSubs, getSig, List.getD, dfltSig] at hm
        rcases hm with rfl | rfl <;>
          simp [getEff, List.getD, dfltEff]
      | i + 1 => simp [cellSubs, getSig, List.getD, dfltSig] at hm
    | cmp i => simp [cellSubs, getComp, List.getD, dfltComp] at hm
  have hnd : NodupSubs dispSt := by
    intro c
    rw [dispSt_eq]
    cases c with
    | sig i =>
      match i with
      | 0 => simp [cellSubs, getSig, List.getD, dfltSig]
      | i + 1 => simp [cellSubs, getSig, List.getD, dfltSig]
    | cmp i => simp [cellSubs, getComp, List.getD, dfltComp]
  have hmem : 1 ∈ childrenOf dispSt 0 := by
    rw [dispSt_eq]
    simp [childrenOf, getEff, List.getD, dfltEff]
  have hr1 : Reaches dispSt 0 1 := .step hmem (.refl 1)
  have hmain := C3_dispose_recursive_terminal 9 dispSt 0 (fun n => 2 - n)
    hE (by decide) hcov hnd
  refine ⟨hmain.1 0 (.refl 0), hmain.1 1 hr1, ?_⟩
  exact hmain.2 9 [.write 0 7] 1 hr1 (by rw [dispSt_eq]; simp)

/-- Witness for C2: `s = signal(5)`; `batch(() => { s.value = 10;
s.value = 5 })` with one subscriber — zero notifications. -/
theorem C2_batch_coalescing_witness :
    ([7] : List Nat).Nodup
      ∧ ((∀ p, countPub p (batchWrites 2 natIs 5 [7] [10, 5]).log ≤ 1)
        ∧ (∀ en ∈ (batchWrites 2 natIs 5 [7] [10, 5]).log, ∃ p ∈ [7],
            en = .pub p (applyWrites natIs (5, false) [10, 5]).1 (some 5))
        ∧ ((getSig (batchWrites 2 natIs 5 [7] [10, 5]) 0).value
            = (applyWrites natIs (5, false) [10, 5]).1)
        ∧ (natIs (applyWrites natIs (5, false) [10, 5]).1 5 = true →
            (batchWrites 2 natIs 5 [7] [10, 5]).log = [])) :=
  ⟨by decide, C2_batch_coalescing 1 natIs 5 [7] [10, 5] (by decide)⟩

end Lattice
